import Mathlib

/-!
Shallow embedding of the houseScanner inspection-pipeline core
(`src/agents-service/app`), covering:

* `infrastructure/llm/agents.py`: `_normalize_allowed_options`,
  `_normalize_option_value`, `_parse_checklist_response`;
* `domain/policies.py`: `ChecklistMergingPolicy._deduplicate_items`;
* `application/services/aggregation.py`: `ResultAggregator._checklist_to_issue_lines`;
* `application/services/preprocess.py`: `ImagePreprocessor.sample_for_classification`;
* `infrastructure/orchestration/rate_limiter.py`: `RateLimiter.acquire` /
  `_refill_buckets` (token buckets over exact rational time), and the
  exception path of `acquire` around the semaphore.

Python dictionaries are modelled as association lists with Python's dict
semantics (assignment to an existing key keeps its position and replaces the
value; a fresh key is appended), and dynamic JSON-like values as the
inductive `JVal`.
-/

namespace HouseScanner

/-- A JSON-like Python value as produced by `json.loads` (numbers restricted
to integers; no claim in scope depends on float values). -/
inductive JVal where
  | null : JVal
  | b : Bool → JVal
  | num : Int → JVal
  | s : String → JVal
  | arr : List JVal → JVal
  | obj : List (String × JVal) → JVal

/-- Python truthiness (`bool(v)`) of a JSON-like value. -/
def jvalTruthy : JVal → Bool
  | JVal.null => false
  | JVal.b bv => bv
  | JVal.num n => n != 0
  | JVal.s sv => sv != ""
  | JVal.arr l => !l.isEmpty
  | JVal.obj l => !l.isEmpty

/-- Lookup in an association list (Python `dict.get`); keys are unique in
every list we build, so the first match is the binding. -/
def alistGet? {α : Type} (m : List (String × α)) (k : String) : Option α :=
  (m.find? (fun p => p.1 = k)).map Prod.snd

/-- Python dict assignment `m[k] = v`: replace in place when the key exists
(keeping its position), otherwise append. -/
def alistInsert {α : Type} (m : List (String × α)) (k : String) (v : α) :
    List (String × α) :=
  if m.any (fun p => p.1 = k) then
    m.map (fun p => if p.1 = k then (k, v) else p)
  else
    m ++ [(k, v)]

/-- The key list of an association list. -/
def alistKeys {α : Type} (m : List (String × α)) : List String :=
  m.map Prod.fst

/-- The number of entries of an association list carrying the key `k`
("exactly one entry" in the claims is `countKey m k = 1`). -/
def countKey {α : Type} (m : List (String × α)) (k : String) : Nat :=
  (m.filter (fun p => p.1 = k)).length

/-- Field access on a JSON object's binding list. -/
def jget (kvs : List (String × JVal)) (k : String) : Option JVal :=
  alistGet? kvs k

/-- `DEFAULT_CONDITION_OPTIONS` from `agents.py`. -/
def DEFAULT_CONDITION_OPTIONS : List String :=
  ["Poor", "Average", "Good", "Excellent", "N/A"]

/-- An ASCII whitespace character, as stripped by Python `str.strip()`. -/
def isSpaceChar (c : Char) : Bool :=
  c = ' ' || c = '\t' || c = '\n' || c = '\r' || c = '\x0b' || c = '\x0c'

/-- Python `str.strip()` (whitespace on both ends), written over the
character list so that the kernel can evaluate it. -/
def pyStrip (s : String) : String :=
  ⟨((s.data.dropWhile isSpaceChar).reverse.dropWhile isSpaceChar).reverse⟩

/-- Lower-casing of one character; the checklist vocabulary is ASCII, so
only `A`–`Z` are mapped. -/
def pyLowerChar (c : Char) : Char :=
  if 'A' ≤ c && c ≤ 'Z' then Char.ofNat (c.toNat + 32) else c

/-- Python `str.lower()` restricted to ASCII. -/
def pyLower (s : String) : String :=
  ⟨s.data.map pyLowerChar⟩

/-- Whether the string starts with a double-quote character. -/
def headIsQuote (s : String) : Bool :=
  match s.data.head? with
  | some c => c = '"'
  | none => false

/-- Whether the string ends with a double-quote character. -/
def lastIsQuote (s : String) : Bool :=
  match s.data.getLast? with
  | some c => c = '"'
  | none => false

/-- The cleaning applied to a single option string in
`_normalize_allowed_options` and `_normalize_option_value`: strip
whitespace, then remove one surrounding pair of double quotes and strip
again. -/
def cleanOptionString (sv : String) : String :=
  let cleaned := pyStrip sv
  if headIsQuote cleaned && lastIsQuote cleaned && decide (cleaned.length ≥ 2) then
    pyStrip ⟨(cleaned.data.drop 1).dropLast⟩
  else
    cleaned

/-- `AgentsService._normalize_allowed_options`: keep strings only, clean
each, drop empties, de-duplicate case-insensitively keeping the first
casing; `None`/empty input and empty output collapse to `None`. -/
def normalizeAllowedOptions (options : Option (List JVal)) : Option (List String) :=
  match options with
  | none => none
  | some opts =>
    if opts.isEmpty then none
    else
      let normalized := opts.foldl (fun acc opt =>
        match opt with
        | JVal.s sv =>
          let cleaned := cleanOptionString sv
          if cleaned = "" then acc
          else if acc.any (fun item => pyLower item = pyLower cleaned) then acc
          else acc ++ [cleaned]
        | _ => acc) ([] : List String)
      if normalized.isEmpty then none else some normalized

/-- The candidate extraction in `_normalize_option_value`: non-strings and
strings that clean to empty become `None`. -/
def cleanValue : JVal → Option String
  | JVal.s sv =>
    let c := cleanOptionString sv
    if c = "" then none else some c
  | _ => none

/-- `{opt.lower(): opt for opt in allowed_options}[key]`: with duplicate
lower-cased keys the last entry wins, as in a Python dict comprehension. -/
def lookupLastLower (allowed : List String) (key : String) : Option String :=
  (allowed.filter (fun o => pyLower o = key)).getLast?

/-- The `for opt in allowed_options: if opt.lower() == "n/a": return opt`
scan (first match). -/
def findNA (allowed : List String) : Option String :=
  allowed.find? (fun o => pyLower o = "n/a")

/-- `AgentsService._normalize_option_value`. -/
def normalizeOptionValue (value : JVal) (allowedOptions : Option (List String)) :
    String :=
  let candidate := cleanValue value
  match allowedOptions with
  | some (a :: rest) =>
    (match candidate with
     | some c =>
       (match lookupLastLower (a :: rest) (pyLower c) with
        | some canon => canon
        | none => (findNA (a :: rest)).getD a)
     | none => (findNA (a :: rest)).getD a)
  | _ => candidate.getD "N/A"

/-- A checklist sub-item as it arrives in `expected_items` (a Python dict;
only the keys read by the code are modelled). -/
structure RawSub where
  id : Option String
  options : Option (List JVal)

/-- A checklist item as it arrives in `expected_items`. -/
structure RawItem where
  id : Option String
  type : Option String
  options : Option (List JVal)
  condition_options : Option (List JVal)
  subitems : Option (List RawSub)

/-- A sub-item after option normalization (the `sub_copy` dicts). -/
structure NormSub where
  id : Option String
  options : Option (List String)
deriving DecidableEq

/-- An item of the `expected_map` built by `_parse_checklist_response`. -/
structure NormItem where
  type : Option String
  options : Option (List String)
  condition_options : Option (List String)
  subitems : List NormSub
deriving DecidableEq

/-- `ConditionalAnswer` (`agent_contracts.py`); at runtime the maps hold
plain strings, so values are modelled as `String`. -/
structure ConditionalAnswer where
  exists_ : Bool
  condition : Option String
  subitems : Option (List (String × String))
deriving DecidableEq

/-- `ChecklistEvaluationOutput` (`agent_contracts.py`), with each Python
dict as an association list. -/
structure ChecklistEvaluationOutput where
  booleans : List (String × Bool)
  categoricals : List (String × String)
  conditionals : List (String × ConditionalAnswer)
deriving DecidableEq

/-- The `normalized_item` built for one raw item in the `expected_map`
loop of `_parse_checklist_response`. -/
def normalizeRawItem (raw : RawItem) : NormItem :=
  { type := raw.type
    options := normalizeAllowedOptions raw.options
    condition_options := normalizeAllowedOptions raw.condition_options
    subitems := (raw.subitems.getD []).map
      (fun sub => { id := sub.id, options := normalizeAllowedOptions sub.options }) }

/-- One step of the `expected_map` loop: items with a falsy id (`None` or
`""`) are skipped; duplicate ids overwrite in place. -/
def emStep (m : List (String × NormItem)) (raw : RawItem) :
    List (String × NormItem) :=
  match raw.id with
  | none => m
  | some i => if i = "" then m else alistInsert m i (normalizeRawItem raw)

/-- The `expected_map` of `_parse_checklist_response`. -/
def buildExpectedMap (expected_items : List RawItem) : List (String × NormItem) :=
  expected_items.foldl emStep []

/-- `parsed.get(key, {})` followed by `isinstance(..., dict)`: `none` means
the key held a non-dict value, so the section is skipped. -/
def getDictDefault (pkvs : List (String × JVal)) (k : String) :
    Option (List (String × JVal)) :=
  match jget pkvs k with
  | none => some []
  | some (JVal.obj kvs) => some kvs
  | some _ => none

/-- One step of the booleans dict comprehension. -/
def pboolStep (em : List (String × NormItem)) (m : List (String × Bool))
    (kv : String × JVal) : List (String × Bool) :=
  if (alistGet? em kv.1).isSome then alistInsert m kv.1 (jvalTruthy kv.2)
  else m

/-- `{k: bool(v) for k, v in booleans.items() if k in expected_ids}`. -/
def processBooleans (em : List (String × NormItem))
    (kvs : List (String × JVal)) : List (String × Bool) :=
  kvs.foldl (pboolStep em) []

/-- One step of the categoricals loop. -/
def pcatStep (em : List (String × NormItem)) (m : List (String × String))
    (kv : String × JVal) : List (String × String) :=
  match alistGet? em kv.1 with
  | some item => alistInsert m kv.1 (normalizeOptionValue kv.2 item.options)
  | none => m

/-- The categoricals loop of `_parse_checklist_response`. -/
def processCategoricals (em : List (String × NormItem))
    (kvs : List (String × JVal)) : List (String × String) :=
  kvs.foldl (pcatStep em) []

/-- Python `x or y` on an optional option list (`None` and `[]` are falsy). -/
def pyOr (a : Option (List String)) (b : List String) : List String :=
  match a with
  | some l => if l.isEmpty then b else l
  | none => b

/-- `item.get("condition_options") or item.get("options") or
DEFAULT_CONDITION_OPTIONS`. -/
def condAllowedOf (item : NormItem) : List String :=
  pyOr item.condition_options (pyOr item.options DEFAULT_CONDITION_OPTIONS)

/-- One step of a subitem normalization loop: sub-items with a falsy id are
skipped, the rest store the value produced by `val`. -/
def subStep (val : NormSub → String → String) (m : List (String × String))
    (sub : NormSub) : List (String × String) :=
  match sub.id with
  | none => m
  | some sid => if sid = "" then m else alistInsert m sid (val sub sid)

/-- The common shape of the two subitem normalization loops of
`_parse_checklist_response` (one per declared sub-item, keyed by its id). -/
def subitemsFold (val : NormSub → String → String) (subs : List NormSub) :
    List (String × String) :=
  subs.foldl (subStep val) []

/-- The subitem normalization loop of the conditionals section, reading
reported values from a JSON object. -/
def normalizeSubitemsReported (subs : List NormSub) (condAll : List String)
    (reported : List (String × JVal)) : List (String × String) :=
  subitemsFold (fun sub sid =>
    normalizeOptionValue ((jget reported sid).getD JVal.null)
      (some (pyOr sub.options condAll))) subs

/-- Python `normalized_subitems or None`: an empty map collapses to `None`. -/
def pyOrNone (l : List (String × String)) : Option (List (String × String)) :=
  if l.isEmpty then none else some l

/-- `raw_subitems if isinstance(raw_subitems, dict) else {}` for a reported
conditional value. -/
def reportedSubMap (vkvs : List (String × JVal)) : List (String × JVal) :=
  match jget vkvs "subitems" with
  | some (JVal.obj skvs) => skvs
  | _ => []

/-- The `ConditionalAnswer` built for one reported conditional entry. -/
def reportedConditional (item : NormItem) (vkvs : List (String × JVal)) :
    ConditionalAnswer :=
  let ex := jvalTruthy ((jget vkvs "exists").getD (JVal.b false))
  let condAll := condAllowedOf item
  let normalizedCondition :=
    normalizeOptionValue ((jget vkvs "condition").getD JVal.null) (some condAll)
  let normalizedSubitems :=
    normalizeSubitemsReported item.subitems condAll (reportedSubMap vkvs)
  { exists_ := ex
    condition := some normalizedCondition
    subitems := pyOrNone normalizedSubitems }

/-- One step of the conditionals loop (reported phase): entries whose key is
unexpected or whose value is not a dict are skipped. -/
def pcondStep (em : List (String × NormItem))
    (m : List (String × ConditionalAnswer)) (kv : String × JVal) :
    List (String × ConditionalAnswer) :=
  match alistGet? em kv.1, kv.2 with
  | some item, JVal.obj vkvs => alistInsert m kv.1 (reportedConditional item vkvs)
  | _, _ => m

/-- The conditionals loop of `_parse_checklist_response` (reported phase). -/
def processConditionals (em : List (String × NormItem))
    (kvs : List (String × JVal)) : List (String × ConditionalAnswer) :=
  kvs.foldl (pcondStep em) []

/-- The subitem normalization loop of the defaults phase, reading existing
values from an already-normalized string map. -/
def normalizeSubitemsDefault (subs : List NormSub) (condAll : List String)
    (existing : List (String × String)) : List (String × String) :=
  subitemsFold (fun sub sid =>
    let v : JVal :=
      match alistGet? existing sid with
      | some sv => JVal.s sv
      | none => JVal.null
    normalizeOptionValue v (some (pyOr sub.options condAll))) subs

/-- The categorical value re-normalized by the defaults loop, from the
value already stored for the id (or `None`). -/
def defaultedCategorical (existing : Option String) (item : NormItem) : String :=
  let value : JVal :=
    match existing with
    | some sv => JVal.s sv
    | none => JVal.null
  normalizeOptionValue value item.options

/-- `existing.subitems if existing and isinstance(existing.subitems, dict)
else` the empty dict, in the defaults loop. -/
def existingSubitemsOf (existing : Option ConditionalAnswer) :
    List (String × String) :=
  match existing with
  | some e => e.subitems.getD []
  | none => []

/-- The `ConditionalAnswer` rebuilt by the defaults loop from the entry
already stored for the id (or `None` when the model omitted it). -/
def defaultedConditional (existing : Option ConditionalAnswer) (item : NormItem) :
    ConditionalAnswer :=
  let condAll := condAllowedOf item
  let existsFlag := match existing with | some e => e.exists_ | none => false
  let existingCondition : JVal :=
    match existing with
    | some e => (match e.condition with | some c => JVal.s c | none => JVal.null)
    | none => JVal.null
  let normalizedSubitems :=
    normalizeSubitemsDefault item.subitems condAll (existingSubitemsOf existing)
  { exists_ := existsFlag
    condition := some (normalizeOptionValue existingCondition (some condAll))
    subitems := pyOrNone normalizedSubitems }

/-- One iteration of the `for item_id, item in expected_map.items()`
defaults loop of `_parse_checklist_response`. -/
def applyDefaultsStep (result : ChecklistEvaluationOutput)
    (entry : String × NormItem) : ChecklistEvaluationOutput :=
  let item_id := entry.1
  let item := entry.2
  if item.type = some "boolean" then
    if (alistGet? result.booleans item_id).isSome then result
    else { result with booleans := alistInsert result.booleans item_id false }
  else if item.type = some "categorical" then
    { result with
        categoricals := alistInsert result.categoricals item_id
          (defaultedCategorical (alistGet? result.categoricals item_id) item) }
  else if item.type = some "conditional" then
    { result with
        conditionals := alistInsert result.conditionals item_id
          (defaultedConditional (alistGet? result.conditionals item_id) item) }
  else result

/-- The `result` of `_parse_checklist_response` after the three reported
sections are processed and before the defaults loop runs. -/
def reportedPhase (parsed : JVal) (em : List (String × NormItem)) :
    ChecklistEvaluationOutput :=
  match parsed with
  | JVal.obj pkvs =>
    { booleans :=
        match getDictDefault pkvs "booleans" with
        | some kvs => processBooleans em kvs
        | none => []
      categoricals :=
        match getDictDefault pkvs "categoricals" with
        | some kvs => processCategoricals em kvs
        | none => []
      conditionals :=
        match getDictDefault pkvs "conditionals" with
        | some kvs => processConditionals em kvs
        | none => [] }
  | _ => { booleans := [], categoricals := [], conditionals := [] }

/-- `AgentsService._parse_checklist_response`, starting from the value
produced by `json.loads` (a parse failure yields the empty dict, i.e.
`JVal.obj []`; a non-dict value skips the reported phase entirely). -/
def parseChecklistResponse (parsed : JVal) (expected_items : List RawItem) :
    ChecklistEvaluationOutput :=
  let em := buildExpectedMap expected_items
  em.foldl applyDefaultsStep (reportedPhase parsed em)

/-- Whether the parsed model response omits id `i` from the given section
(the section is absent, not a dict, or lacks the key). -/
def sectionOmits (pkvs : List (String × JVal)) (sec i : String) : Bool :=
  match getDictDefault pkvs sec with
  | some kvs => (alistGet? kvs i).isNone
  | none => true

/-! ## Checklist dedup (`domain/policies.py`) -/

/-- `item.get("id")` followed by Python truthiness: a missing or empty id
is falsy. -/
def truthyId (item : RawItem) : Option String :=
  match item.id with
  | some i => if i = "" then none else some i
  | none => none

/-- One iteration of the reverse walk of
`ChecklistMergingPolicy._deduplicate_items`: the state is the `seen` id set
(as a list) and the `deduplicated` accumulator. -/
def dedupStep (st : List String × List RawItem) (item : RawItem) :
    List String × List RawItem :=
  match truthyId item with
  | some i => if i ∈ st.1 then st else (i :: st.1, st.2 ++ [item])
  | none => st

/-- `ChecklistMergingPolicy._deduplicate_items`: walk the list in reverse,
keep an item the first time its (truthy) id is seen, then reverse back. -/
def deduplicateItems (items : List RawItem) : List RawItem :=
  (items.reverse.foldl dedupStep ([], [])).2.reverse

/-- Recursive presentation of the reverse walk: the list of kept items in
emission order, given the ids already seen. -/
def dedupKeep : List RawItem → List String → List RawItem
  | [], _ => []
  | item :: rest, seen =>
    match truthyId item with
    | some i =>
      if i ∈ seen then dedupKeep rest seen
      else item :: dedupKeep rest (i :: seen)
    | none => dedupKeep rest seen

/-! ## Summary generation (`application/services/aggregation.py`) -/

/-- `ResultAggregator._checklist_to_issue_lines`. -/
def checklistToIssueLines (scope : String) (answers : ChecklistEvaluationOutput) :
    List String :=
  let lines1 := answers.booleans.foldl (fun ls kv =>
    if kv.2 = true then ls ++ [scope ++ ":" ++ kv.1 ++ ":true"] else ls) []
  let lines2 := answers.categoricals.foldl (fun ls kv =>
    if kv.2 ≠ "" ∧ kv.2 ≠ "N/A" then ls ++ [scope ++ ":" ++ kv.1 ++ ":" ++ kv.2]
    else ls) lines1
  answers.conditionals.foldl (fun ls kv =>
    if kv.2.exists_ then
      let ls := ls ++ [scope ++ ":" ++ kv.1 ++ ":exists"]
      let ls :=
        match kv.2.condition with
        | some c => if c ≠ "" then ls ++ [scope ++ ":" ++ kv.1 ++ ":condition:" ++ c] else ls
        | none => ls
      match kv.2.subitems with
      | some sm =>
        if sm.isEmpty then ls
        else sm.foldl (fun ls sv =>
          if sv.2 ≠ "" ∧ sv.2 ≠ "N/A" then
            ls ++ [scope ++ ":" ++ kv.1 ++ ":" ++ sv.1 ++ ":" ++ sv.2]
          else ls) ls
      | none => ls
    else ls) lines2

/-- Modelled from the spec: the emission rules of the deterministic summary
as the claim words them — one `scope:id:true` line per true boolean, one
`scope:id:value` line per categorical whose value is not `"N/A"`, and for
each conditional with `exists = true` the `exists` line, the condition line
when the condition is non-null, and one line per subitem whose value is not
`"N/A"`. -/
def issueLinesSpec (scope : String) (answers : ChecklistEvaluationOutput) :
    List String :=
  ((answers.booleans.filter (fun kv => kv.2)).map
    (fun kv => scope ++ ":" ++ kv.1 ++ ":true"))
  ++ ((answers.categoricals.filter (fun kv => kv.2 ≠ "N/A")).map
    (fun kv => scope ++ ":" ++ kv.1 ++ ":" ++ kv.2))
  ++ (answers.conditionals.foldr (fun kv acc =>
        (if kv.2.exists_ then
          [scope ++ ":" ++ kv.1 ++ ":exists"]
          ++ (match kv.2.condition with
              | some c => [scope ++ ":" ++ kv.1 ++ ":condition:" ++ c]
              | none => [])
          ++ (((kv.2.subitems.getD []).filter (fun sv => sv.2 ≠ "N/A")).map
              (fun sv => scope ++ ":" ++ kv.1 ++ ":" ++ sv.1 ++ ":" ++ sv.2))
        else []) ++ acc) [])

/-- All stored values of an evaluation result are `Quality` strings, the
declared value type of `ChecklistEvaluationOutput`
(`Dict[str, Quality]`, `Optional[Quality]`). -/
def isQualityValued (answers : ChecklistEvaluationOutput) : Bool :=
  answers.categoricals.all (fun kv => DEFAULT_CONDITION_OPTIONS.contains kv.2)
  && answers.conditionals.all (fun kv =>
      (match kv.2.condition with
       | some c => DEFAULT_CONDITION_OPTIONS.contains c
       | none => true)
      && (kv.2.subitems.getD []).all (fun sv => DEFAULT_CONDITION_OPTIONS.contains sv.2))

/-! ## Classification sampling (`application/services/preprocess.py`) -/

/-- Insertion of a number into a sorted list (ascending). -/
def insertSortedNat (x : Nat) : List Nat → List Nat
  | [] => [x]
  | y :: ys => if x ≤ y then x :: y :: ys else y :: insertSortedNat x ys

/-- Insertion sort on naturals. -/
def sortNatList (l : List Nat) : List Nat :=
  l.foldr insertSortedNat []

/-- Python `sorted({...})`: the sorted list of the distinct values. -/
def pySortedSet (l : List Nat) : List Nat :=
  sortNatList (l.foldl (fun acc x => if x ∈ acc then acc else acc ++ [x]) [])

/-- `ImagePreprocessor.sample_for_classification` restricted to the image
selection it performs; the per-image JPEG re-encoding
(`_optimize_for_classification`) is an external image transform applied to
each selected image and is outside this model. -/
def sampleForClassification {α : Type} (images : List α) (k : Nat) : List α :=
  if images.length ≤ k then images
  else
    let n := images.length
    let indices := pySortedSet [0, n / 3, 2 * n / 3, n - 1]
    indices.filterMap (fun i => images.get? i)

/-! ## Rate limiter (`infrastructure/orchestration/rate_limiter.py`)

The buckets are modelled over exact rationals (the code uses floats and
`time.time()`); a trace is the sequence of successful `acquire` calls as
`(wall-clock time, estimated_tokens)` pairs.  Failed bucket checks inside
the retry loop only run `_refill_buckets`, and refilling at `t₁` then `t₂`
equals refilling once at `t₂`, so they are invisible to the state observed
by later acquisitions and are not modelled as events. -/

/-- The mutable bucket state of `RateLimiter`. -/
structure GovState where
  tpmTokens : ℚ
  rpmTokens : ℚ
  lastRefill : ℚ

/-- `RateLimiter._refill_buckets` at wall-clock time `now`. -/
def refillBuckets (capT capR : ℚ) (s : GovState) (now : ℚ) : GovState :=
  let elapsed := now - s.lastRefill
  if elapsed ≤ 0 then s
  else
    { tpmTokens := min capT (s.tpmTokens + elapsed / 60 * capT)
      rpmTokens := min capR (s.rpmTokens + elapsed / 60 * capR)
      lastRefill := now }

/-- The success condition of one `acquire` check at time `t`. -/
def acquireOk (capT capR : ℚ) (s : GovState) (t est : ℚ) : Prop :=
  est ≤ (refillBuckets capT capR s t).tpmTokens
  ∧ 1 ≤ (refillBuckets capT capR s t).rpmTokens

/-- The state after a successful `acquire` at time `t` deducting `est`. -/
def acquireStep (capT capR : ℚ) (s : GovState) (t est : ℚ) : GovState :=
  let r := refillBuckets capT capR s t
  { tpmTokens := r.tpmTokens - est
    rpmTokens := r.rpmTokens - 1
    lastRefill := r.lastRefill }

/-- A list of `(time, estimated_tokens)` events is a valid run of
successful acquisitions from state `s`: times never go backwards (wall
clock), estimates are nonnegative, and every check succeeds. -/
def validFrom (capT capR : ℚ) : GovState → List (ℚ × ℚ) → Prop
  | _, [] => True
  | s, e :: rest =>
    s.lastRefill ≤ e.1 ∧ 0 ≤ e.2 ∧ acquireOk capT capR s e.1 e.2
    ∧ validFrom capT capR (acquireStep capT capR s e.1 e.2) rest

/-- The initial limiter state: both buckets start full. -/
def initState (capT capR t0 : ℚ) : GovState :=
  { tpmTokens := capT, rpmTokens := capR, lastRefill := t0 }

/-- Bucket-state sanity: both buckets between empty and capacity. -/
def StateOk (capT capR : ℚ) (s : GovState) : Prop :=
  0 ≤ s.tpmTokens ∧ s.tpmTokens ≤ capT ∧ 0 ≤ s.rpmTokens ∧ s.rpmTokens ≤ capR

/-- The events of a trace that fall in the closed window `[w, w + 60]`. -/
def windowEvents (l : List (ℚ × ℚ)) (w : ℚ) : List (ℚ × ℚ) :=
  l.filter (fun e => decide (w ≤ e.1) && decide (e.1 ≤ w + 60))

/-- Tokens deducted by the acquisitions inside the window `[w, w + 60]`. -/
def windowTokens (l : List (ℚ × ℚ)) (w : ℚ) : ℚ :=
  ((windowEvents l w).map Prod.snd).sum

/-- Number of acquisitions inside the window `[w, w + 60]`. -/
def windowCount (l : List (ℚ × ℚ)) (w : ℚ) : ℚ :=
  ((windowEvents l w).length : ℚ)

/-! ## Cancellation path of `RateLimiter.acquire`

After the semaphore slot is obtained, the token-bucket wait loop runs under
`try: ... except Exception: self.semaphore.release(); raise`.  In Python
3.8+ `asyncio.CancelledError` derives from `BaseException` and not from
`Exception`, so an `except Exception` clause does not match it. -/

/-- The class of the exception escaping the wait loop: a task cancellation,
or an ordinary `Exception` subclass. -/
inductive PyExc where
  | cancelledError : PyExc
  | exception : PyExc
deriving DecidableEq

/-- Whether `except Exception` matches the raised exception:
`asyncio.CancelledError` derives from `BaseException` only. -/
def matchesExceptException : PyExc → Bool
  | PyExc.cancelledError => false
  | PyExc.exception => true

/-- Semaphore slots still held by the caller after `RateLimiter.acquire`
raised `e` out of the token-bucket wait (the slot was obtained at the top
of `acquire`; only a matching `except Exception` handler releases it before
re-raising). -/
def slotsHeldAfterAcquireRaise (e : PyExc) : Nat :=
  if matchesExceptException e then 0 else 1

/-- A bare checklist item with the given id and a tag in `type`
distinguishing the occurrences of the scenario lists. -/
def mkTaggedItem (i tag : String) : RawItem :=
  { id := some i, type := some tag, options := none, condition_options := none,
    subitems := none }

/-- The dedup scenario input of the spec: id sequence `[a1, b1, a2, c1, b2]`. -/
def dedupScenarioInput : List RawItem :=
  [mkTaggedItem "a" "1", mkTaggedItem "b" "1", mkTaggedItem "a" "2",
   mkTaggedItem "c" "1", mkTaggedItem "b" "2"]

/-- The expected dedup scenario output: `[a2, c1, b2]`. -/
def dedupScenarioOutput : List RawItem :=
  [mkTaggedItem "a" "2", mkTaggedItem "c" "1", mkTaggedItem "b" "2"]

/-- An item with a missing id. -/
def noIdItem : RawItem :=
  { id := none, type := none, options := none, condition_options := none,
    subitems := none }

/-- The conditional-defaulting scenario item of the spec:
`{id: y, kind: conditional, subitems: [{id: s1, options: [Poor, Good, N/A]}]}`. -/
def conditionalScenarioItem : RawItem :=
  { id := some "y", type := some "conditional", options := none,
    condition_options := none,
    subitems := some
      [⟨some "s1", some [JVal.s "Poor", JVal.s "Good", JVal.s "N/A"]⟩] }

/-- The summary scenario of the spec: house booleans
`{damage: true, functional: false}`, categoricals `{wall: Poor}`,
conditionals `{roof: {exists: true, condition: Average, subitems:
{tiles: Poor}}}`. -/
def summaryScenarioAnswers : ChecklistEvaluationOutput :=
  { booleans := [("damage", true), ("functional", false)]
    categoricals := [("wall", "Poor")]
    conditionals := [("roof",
      { exists_ := true, condition := some "Average",
        subitems := some [("tiles", "Poor")] })] }

/-- A categorical scenario item with the Quality options. -/
def catScenarioItem : RawItem :=
  { id := some "x", type := some "categorical",
    options := some [JVal.s "Poor", JVal.s "Average", JVal.s "Good",
      JVal.s "Excellent", JVal.s "N/A"],
    condition_options := none, subitems := none }

/-- A parsed response reporting `"gOoD"` for the categorical id `x`. -/
def catScenarioParsed : JVal :=
  JVal.obj [("categoricals", JVal.obj [("x", JVal.s "gOoD")])]

/-! ## General list helpers -/

theorem find?_eq_filter_head? {α : Type} (p : α → Bool) :
    ∀ l : List α, l.find? p = (l.filter p).head? := by
  intro l
  induction l with
  | nil => rfl
  | cons x xs ih =>
    cases hx : p x
    · rw [List.find?_cons_of_neg _ (by simp [hx]),
        List.filter_cons_of_neg (by simp [hx]), ih]
    · rw [List.find?_cons_of_pos _ hx, List.filter_cons_of_pos hx, List.head?_cons]

theorem filter_toLower_unique (l : List String) (key canon : String)
    (hnd : (l.map pyLower).Nodup) (hmem : canon ∈ l)
    (hkey : pyLower canon = key) :
    l.filter (fun o => pyLower o = key) = [canon] := by
  induction l with
  | nil => cases hmem
  | cons x xs ih =>
    simp only [List.map_cons, List.nodup_cons] at hnd
    rcases List.mem_cons.mp hmem with hx | hxs
    · subst hx
      have hrest : xs.filter (fun o => pyLower o = key) = [] := by
        rw [List.filter_eq_nil_iff]
        intro o ho h
        apply hnd.1
        rw [hkey, ← (by simpa using h : pyLower o = key)]
        exact List.mem_map_of_mem pyLower ho
      rw [List.filter_cons_of_pos (by simp [hkey]), hrest]
    · have hxne : ¬ (pyLower x = key) := by
        intro h
        apply hnd.1
        rw [h, ← hkey]
        exact List.mem_map_of_mem pyLower hxs
      rw [List.filter_cons_of_neg (by simpa using hxne)]
      exact ih hnd.2 hxs

/-- Claim C6: option-value normalization against a non-empty allowed list
returns the canonical casing from the allowed list on a case-insensitive
match (`"gOoD"` ↦ `"Good"`), otherwise the allowed list's `"N/A"` entry
when one exists case-insensitively (`"rubbish"` ↦ `"N/A"`), otherwise the
first declared option; with no allowed list it returns the cleaned
(quote-stripped) raw value if non-empty, else `"N/A"`.  Uniqueness of the
canonical casing is expressed by the case-insensitive-Nodup hypothesis on
the allowed list. -/
theorem C6_normalize_option_value :
    (∀ (v : JVal) (l : List String) (c canon : String),
      cleanValue v = some c → canon ∈ l → pyLower canon = pyLower c →
      (l.map pyLower).Nodup →
      normalizeOptionValue v (some l) = canon)
    ∧ (∀ (v : JVal) (l : List String) (na : String),
      l ≠ [] →
      (∀ c, cleanValue v = some c → ∀ o ∈ l, pyLower o ≠ pyLower c) →
      na ∈ l → pyLower na = "n/a" → (l.map pyLower).Nodup →
      normalizeOptionValue v (some l) = na)
    ∧ (∀ (v : JVal) (a : String) (rest : List String),
      (∀ c, cleanValue v = some c → ∀ o ∈ a :: rest, pyLower o ≠ pyLower c) →
      (∀ o ∈ a :: rest, pyLower o ≠ "n/a") →
      normalizeOptionValue v (some (a :: rest)) = a)
    ∧ (∀ v : JVal, normalizeOptionValue v none = (cleanValue v).getD "N/A")
    ∧ normalizeOptionValue (JVal.s "gOoD") (some DEFAULT_CONDITION_OPTIONS) = "Good"
    ∧ normalizeOptionValue (JVal.s "rubbish") (some DEFAULT_CONDITION_OPTIONS) = "N/A"
    ∧ normalizeOptionValue JVal.null (some DEFAULT_CONDITION_OPTIONS) = "N/A" := by
  refine ⟨?_, ?_, ?_, ?_, by decide, by decide, by decide⟩
  · intro v l c canon hc hmem hlow hnd
    cases l with
    | nil => cases hmem
    | cons a rest =>
      have hfilter := filter_toLower_unique (a :: rest) (pyLower c) canon hnd hmem hlow
      simp only [normalizeOptionValue, hc, lookupLastLower, hfilter, List.getLast?]
      exact List.getLast_singleton canon _
  · intro v l na hne hnomatch hmem hna hnd
    cases l with
    | nil => exact absurd rfl hne
    | cons a rest =>
      have hfindna : findNA (a :: rest) = some na := by
        rw [findNA, find?_eq_filter_head?,
          filter_toLower_unique (a :: rest) "n/a" na hnd hmem hna, List.head?_cons]
      cases hc : cleanValue v with
      | none => simp only [normalizeOptionValue, hc, hfindna, Option.getD_some]
      | some c =>
        have hfilter : (a :: rest).filter (fun o => pyLower o = pyLower c) = [] := by
          rw [List.filter_eq_nil_iff]
          intro o ho h
          exact hnomatch c hc o ho (by simpa using h)
        simp only [normalizeOptionValue, hc, lookupLastLower, hfilter, List.getLast?,
          hfindna, Option.getD_some]
  · intro v a rest hnomatch hnona
    have hfindna : findNA (a :: rest) = none := by
      rw [findNA, List.find?_eq_none]
      intro o ho
      simpa using hnona o ho
    cases hc : cleanValue v with
    | none => simp only [normalizeOptionValue, hc, hfindna, Option.getD_none]
    | some c =>
      have hfilter : (a :: rest).filter (fun o => pyLower o = pyLower c) = [] := by
        rw [List.filter_eq_nil_iff]
        intro o ho h
        exact hnomatch c hc o ho (by simpa using h)
      simp only [normalizeOptionValue, hc, lookupLastLower, hfilter, List.getLast?,
        hfindna, Option.getD_none]
  · intro v
    simp only [normalizeOptionValue]

/-- Witness for C6: the canonical-casing branch applied at the concrete
input `"gOoD"` against the Quality options. -/
theorem C6_normalize_option_value_witness :
    normalizeOptionValue (JVal.s "gOoD") (some DEFAULT_CONDITION_OPTIONS) = "Good" :=
  C6_normalize_option_value.1 (JVal.s "gOoD") DEFAULT_CONDITION_OPTIONS "gOoD" "Good"
    (by decide) (by decide) (by decide) (by decide)

theorem pySortedSet_quad (a b c : Nat) (h0 : 0 < a) (hab : a < b) (hbc : b < c) :
    pySortedSet [0, a, b, c] = [0, a, b, c] := by
  have ha : ¬ (a = 0) := by omega
  have hb0 : ¬ (b = 0) := by omega
  have hba : ¬ (b = a) := by omega
  have hc0 : ¬ (c = 0) := by omega
  have hca : ¬ (c = a) := by omega
  have hcb : ¬ (c = b) := by omega
  have hdedup : ([0, a, b, c] : List Nat).foldl
      (fun acc x => if x ∈ acc then acc else acc ++ [x]) [] = [0, a, b, c] := by
    simp [List.foldl, ha, hb0, hba, hc0, hca, hcb]
  rw [pySortedSet, hdedup]
  simp [sortNatList, insertSortedNat, hab.le, hbc.le]

/-- Claim C8: `sample_for_classification` returns all images when there are
at most `k` of them, and otherwise selects exactly the indices
`{0, n / 3, 2n / 3, n - 1}` in increasing order (4 distinct indices when
`n ≥ 4`); for 10 images and `k = 4` the chosen indices are 0, 3, 6, 9. -/
theorem C8_sample_for_classification :
    (∀ (images : List Nat) (k : Nat), images.length ≤ k →
      sampleForClassification images k = images)
    ∧ (∀ (images : List Nat) (k : Nat), 4 ≤ images.length → k < images.length →
      sampleForClassification images k =
        [0, images.length / 3, 2 * images.length / 3, images.length - 1].filterMap
          (fun i => images.get? i)
      ∧ (sampleForClassification images k).length = 4)
    ∧ sampleForClassification (List.range 10) 4 = [0, 3, 6, 9] := by
  refine ⟨?_, ?_, by decide⟩
  · intro images k h
    simp [sampleForClassification, h]
  · intro images k h4 hk
    have hno : ¬ images.length ≤ k := by omega
    have hord : 0 < images.length / 3 ∧ images.length / 3 < 2 * images.length / 3
        ∧ 2 * images.length / 3 < images.length - 1 := by omega
    have hq := pySortedSet_quad (images.length / 3) (2 * images.length / 3)
      (images.length - 1) hord.1 hord.2.1 hord.2.2
    have heq : sampleForClassification images k =
        [0, images.length / 3, 2 * images.length / 3, images.length - 1].filterMap
          (fun i => images.get? i) := by
      rw [sampleForClassification, if_neg hno]
      simp only [hq]
    refine ⟨heq, ?_⟩
    rw [heq]
    have hlt : ∀ i, i < images.length → ∃ x, images.get? i = some x := by
      intro i hi
      exact ⟨images.get ⟨i, hi⟩, List.get?_eq_get hi⟩
    obtain ⟨x0, hx0⟩ := hlt 0 (by omega)
    obtain ⟨x1, hx1⟩ := hlt (images.length / 3) (by omega)
    obtain ⟨x2, hx2⟩ := hlt (2 * images.length / 3) (by omega)
    obtain ⟨x3, hx3⟩ := hlt (images.length - 1) (by omega)
    rw [List.get?_eq_getElem?] at hx0 hx1 hx2 hx3
    simp [List.filterMap_cons, hx0, hx1, hx2, hx3]

/-- Witness for C8: both branches applied concretely — the pass-through
branch at 3 images with cap 4, and the sampling branch at 10 images with
cap 4. -/
theorem C8_sample_for_classification_witness :
    sampleForClassification (List.range 3) 4 = List.range 3
    ∧ sampleForClassification (List.range 10) 4 =
        [0, 10 / 3, 2 * 10 / 3, 10 - 1].filterMap (fun i => (List.range 10).get? i) :=
  ⟨C8_sample_for_classification.1 (List.range 3) 4 (by decide),
   by
    have h := (C8_sample_for_classification.2.1 (List.range 10) 4 (by decide) (by decide)).1
    simpa using h⟩

/-! ## Dedup lemmas -/

theorem dedup_foldl_eq_keep :
    ∀ (l : List RawItem) (seen : List String) (acc : List RawItem),
      (l.foldl dedupStep (seen, acc)).2 = acc ++ dedupKeep l seen := by
  intro l
  induction l with
  | nil => intro seen acc; simp [dedupKeep]
  | cons item rest ih =>
    intro seen acc
    simp only [List.foldl, dedupStep, dedupKeep]
    cases truthyId item with
    | none => exact ih seen acc
    | some i =>
      by_cases hmem : i ∈ seen
      · simp only [if_pos hmem]
        exact ih seen acc
      · simp only [if_neg hmem]
        rw [ih (i :: seen) (acc ++ [item])]
        simp

theorem deduplicateItems_eq_keep (items : List RawItem) :
    deduplicateItems items = (dedupKeep items.reverse []).reverse := by
  rw [deduplicateItems, dedup_foldl_eq_keep items.reverse [] []]
  simp

theorem truthyId_eq_some_iff (it : RawItem) (i : String) :
    truthyId it = some i ↔ it.id = some i ∧ i ≠ "" := by
  cases hid : it.id with
  | none => simp [truthyId, hid]
  | some j =>
    by_cases hj : j = ""
    · subst hj
      constructor
      · intro h
        exfalso
        simp [truthyId, hid] at h
      · rintro ⟨h, hne⟩
        exact absurd (Option.some_injective _ h).symm hne
    · constructor
      · intro h
        have hh : truthyId it = some j := by simp [truthyId, hid, hj]
        rw [hh] at h
        have hji := Option.some_injective _ h
        exact ⟨by rw [hji], hji ▸ hj⟩
      · rintro ⟨h, hne⟩
        have hji := Option.some_injective _ h
        simp only [truthyId, hid, if_neg hj, hji, if_neg hne]

theorem dedupKeep_cons_some (item : RawItem) (rest : List RawItem)
    (seen : List String) (i : String) (hid : truthyId item = some i) :
    dedupKeep (item :: rest) seen =
      if i ∈ seen then dedupKeep rest seen
      else item :: dedupKeep rest (i :: seen) := by
  simp [dedupKeep, hid]

theorem dedupKeep_cons_none (item : RawItem) (rest : List RawItem)
    (seen : List String) (hid : truthyId item = none) :
    dedupKeep (item :: rest) seen = dedupKeep rest seen := by
  simp [dedupKeep, hid]

theorem dedupKeep_sublist :
    ∀ (l : List RawItem) (seen : List String), List.Sublist (dedupKeep l seen) l := by
  intro l
  induction l with
  | nil => intro seen; simp [dedupKeep]
  | cons item rest ih =>
    intro seen
    simp only [dedupKeep]
    cases truthyId item with
    | none => exact (ih seen).cons item
    | some i =>
      by_cases hmem : i ∈ seen
      · simp only [if_pos hmem]
        exact (ih seen).cons item
      · simp only [if_neg hmem]
        exact (ih (i :: seen)).cons₂ item

theorem dedupKeep_ids :
    ∀ (l : List RawItem) (seen : List String) (it : RawItem),
      it ∈ dedupKeep l seen → ∃ i, truthyId it = some i ∧ i ∉ seen := by
  intro l
  induction l with
  | nil => intro seen it h; simp [dedupKeep] at h
  | cons item rest ih =>
    intro seen it h
    cases hid : truthyId item with
    | none =>
      rw [dedupKeep_cons_none item rest seen hid] at h
      exact ih seen it h
    | some i =>
      rw [dedupKeep_cons_some item rest seen i hid] at h
      by_cases hmem : i ∈ seen
      · rw [if_pos hmem] at h
        exact ih seen it h
      · rw [if_neg hmem] at h
        rcases List.mem_cons.mp h with hit | hrest
        · exact ⟨i, by rw [hit]; exact hid, hmem⟩
        · obtain ⟨j, hj, hjs⟩ := ih (i :: seen) it hrest
          exact ⟨j, hj, fun hc => hjs (List.mem_cons_of_mem i hc)⟩

theorem dedupKeep_nodup :
    ∀ (l : List RawItem) (seen : List String),
      ((dedupKeep l seen).filterMap truthyId).Nodup := by
  intro l
  induction l with
  | nil => intro seen; simp [dedupKeep]
  | cons item rest ih =>
    intro seen
    cases hid : truthyId item with
    | none => rw [dedupKeep_cons_none item rest seen hid]; exact ih seen
    | some i =>
      rw [dedupKeep_cons_some item rest seen i hid]
      by_cases hmem : i ∈ seen
      · rw [if_pos hmem]; exact ih seen
      · rw [if_neg hmem]
        rw [List.filterMap_cons, hid]
        refine List.Nodup.cons ?_ (ih (i :: seen))
        intro hc
        obtain ⟨it', hit', hid'⟩ := List.mem_filterMap.mp hc
        obtain ⟨j, hj, hjs⟩ := dedupKeep_ids rest (i :: seen) it' hit'
        rw [hj] at hid'
        exact hjs (Option.some_injective _ hid' ▸ List.mem_cons_self i seen)

theorem dedupKeep_cover :
    ∀ (l : List RawItem) (seen : List String) (i : String), i ∉ seen →
      ((∃ it ∈ l, truthyId it = some i) ↔ ∃ it ∈ dedupKeep l seen, truthyId it = some i) := by
  intro l
  induction l with
  | nil => intro seen i _; simp [dedupKeep]
  | cons item rest ih =>
    intro seen i hi
    cases hid : truthyId item with
    | none =>
      rw [dedupKeep_cons_none item rest seen hid, ← ih seen i hi]
      constructor
      · rintro ⟨it, hit, h⟩
        rcases List.mem_cons.mp hit with rfl | hrest
        · rw [hid] at h; cases h
        · exact ⟨it, hrest, h⟩
      · rintro ⟨it, hit, h⟩
        exact ⟨it, List.mem_cons_of_mem item hit, h⟩
    | some j =>
      rw [dedupKeep_cons_some item rest seen j hid]
      by_cases hmem : j ∈ seen
      · rw [if_pos hmem, ← ih seen i hi]
        constructor
        · rintro ⟨it, hit, h⟩
          rcases List.mem_cons.mp hit with rfl | hrest
          · rw [hid] at h
            exact absurd (Option.some_injective _ h ▸ hmem) hi
          · exact ⟨it, hrest, h⟩
        · rintro ⟨it, hit, h⟩
          exact ⟨it, List.mem_cons_of_mem item hit, h⟩
      · rw [if_neg hmem]
        by_cases hij : i = j
        · subst hij
          constructor
          · intro _
            exact ⟨item, List.mem_cons_self item _, hid⟩
          · intro _
            exact ⟨item, List.mem_cons_self item _, hid⟩
        · have hi' : i ∉ j :: seen := by
            intro hc
            rcases List.mem_cons.mp hc with h | h
            · exact hij h
            · exact hi h
          constructor
          · rintro ⟨it, hit, h⟩
            rcases List.mem_cons.mp hit with rfl | hrest
            · rw [hid] at h
              exact absurd (Option.some_injective _ h).symm hij
            · obtain ⟨it', hit', h'⟩ := (ih (j :: seen) i hi').mp ⟨it, hrest, h⟩
              exact ⟨it', List.mem_cons_of_mem item hit', h'⟩
          · rintro ⟨it, hit, h⟩
            rcases List.mem_cons.mp hit with rfl | hrest
            · rw [hid] at h
              exact absurd (Option.some_injective _ h).symm hij
            · obtain ⟨it', hit', h'⟩ := (ih (j :: seen) i hi').mpr ⟨it, hrest, h⟩
              exact ⟨it', List.mem_cons_of_mem item hit', h'⟩

theorem dedupKeep_first_occurrence :
    ∀ (l : List RawItem) (seen : List String) (it : RawItem) (i : String),
      it ∈ dedupKeep l seen → truthyId it = some i →
      l.find? (fun x => truthyId x = some i) = some it := by
  intro l
  induction l with
  | nil => intro seen it i h _; simp [dedupKeep] at h
  | cons item rest ih =>
    intro seen it i h hit
    cases hid : truthyId item with
    | none =>
      rw [dedupKeep_cons_none item rest seen hid] at h
      rw [List.find?_cons_of_neg _ (by simp [hid])]
      exact ih seen it i h hit
    | some j =>
      rw [dedupKeep_cons_some item rest seen j hid] at h
      by_cases hmem : j ∈ seen
      · rw [if_pos hmem] at h
        obtain ⟨i', hi', hs'⟩ := dedupKeep_ids rest seen it h
        have hii : i' = i := by rw [hit] at hi'; exact (Option.some_injective _ hi').symm
        have hji : ¬ (j = i) := fun hc => hs' (by rw [hii, ← hc]; exact hmem)
        rw [List.find?_cons_of_neg _ (by simp [hid, hji])]
        exact ih seen it i h hit
      · rw [if_neg hmem] at h
        rcases List.mem_cons.mp h with rfl | hrest
        · have : j = i := by
            rw [hit] at hid
            exact (Option.some_injective _ hid).symm
          subst this
          rw [List.find?_cons_of_pos _ (by simp [hid])]
        · obtain ⟨i', hi', hs'⟩ := dedupKeep_ids rest (j :: seen) it hrest
          have hii : i' = i := by rw [hit] at hi'; exact (Option.some_injective _ hi').symm
          have hji : ¬ (j = i) := fun hc =>
            hs' (by rw [hii, ← hc]; exact List.mem_cons_self j seen)
          rw [List.find?_cons_of_neg _ (by simp [hid, hji])]
          exact ih (j :: seen) it i hrest hit

/-- Claim C4: deduplication keeps, for each id, the item from its last
occurrence (the first occurrence in the reversed list), emits survivors in
the relative order of their original positions (a sublist of the input),
the output ids are duplicate-free, the surviving id set equals the input's
truthy id set, and the scenario `[a1, b1, a2, c1, b2]` yields
`[a2, c1, b2]`. -/
theorem C4_dedup_last_wins :
    (∀ items : List RawItem,
      List.Sublist (deduplicateItems items) items
      ∧ ((deduplicateItems items).filterMap truthyId).Nodup
      ∧ (∀ i, (∃ it ∈ deduplicateItems items, truthyId it = some i)
          ↔ (∃ it ∈ items, truthyId it = some i))
      ∧ (∀ it ∈ deduplicateItems items, ∀ i, truthyId it = some i →
          items.reverse.find? (fun x => truthyId x = some i) = some it))
    ∧ deduplicateItems dedupScenarioInput = dedupScenarioOutput := by
  refine ⟨?_, by rfl⟩
  intro items
  have hrw := deduplicateItems_eq_keep items
  refine ⟨?_, ?_, ?_, ?_⟩
  · rw [hrw]
    have := (dedupKeep_sublist items.reverse []).reverse
    simpa using this
  · rw [hrw, List.filterMap_reverse]
    exact List.nodup_reverse.mpr (dedupKeep_nodup items.reverse [])
  · intro i
    rw [hrw]
    have := dedupKeep_cover items.reverse [] i (by simp)
    constructor
    · rintro ⟨it, hit, h⟩
      obtain ⟨it', hit', h'⟩ := this.mpr ⟨it, by simpa using hit, h⟩
      exact ⟨it', by simpa using hit', h'⟩
    · rintro ⟨it, hit, h⟩
      obtain ⟨it', hit', h'⟩ := this.mp ⟨it, by simpa using hit, h⟩
      exact ⟨it', by simpa using hit', h'⟩
  · intro it hit i h
    rw [hrw] at hit
    exact dedupKeep_first_occurrence items.reverse [] it i (by simpa using hit) h

/-- Witness for C4: the general statement applied to the concrete scenario
list — the surviving `a`-item is the one found first in the reversed input
(the last occurrence `a2`). -/
theorem C4_dedup_last_wins_witness :
    dedupScenarioInput.reverse.find?
      (fun x => truthyId x = some "a") = some (mkTaggedItem "a" "2") :=
  (C4_dedup_last_wins.1 dedupScenarioInput).2.2.2 (mkTaggedItem "a" "2")
    (by rw [C4_dedup_last_wins.2]; exact List.mem_cons_self _ _) "a" (by decide)

/-- Claim C9: every item surviving deduplication carries a non-empty id;
an input item whose id is missing or empty never survives. -/
theorem C9_dedup_drops_falsy_ids :
    ∀ items : List RawItem,
      (∀ it ∈ deduplicateItems items, ∃ i, it.id = some i ∧ i ≠ "")
      ∧ (∀ it ∈ items, (it.id = none ∨ it.id = some "") →
          it ∉ deduplicateItems items) := by
  intro items
  have hids : ∀ it ∈ deduplicateItems items, ∃ i, it.id = some i ∧ i ≠ "" := by
    intro it hit
    rw [deduplicateItems_eq_keep items] at hit
    obtain ⟨i, hi, _⟩ := dedupKeep_ids items.reverse [] it (by simpa using hit)
    obtain ⟨hid, hne⟩ := (truthyId_eq_some_iff it i).mp hi
    exact ⟨i, hid, hne⟩
  refine ⟨hids, ?_⟩
  intro it _ hfalsy hc
  obtain ⟨i, hi, hne⟩ := hids it hc
  rcases hfalsy with h | h
  · rw [h] at hi; cases hi
  · rw [h] at hi
    exact hne (Option.some_injective _ hi).symm

/-- Witness for C9: applied concretely — an item with a missing id is
dropped from the merged list. -/
theorem C9_dedup_drops_falsy_ids_witness :
    noIdItem ∉ deduplicateItems [noIdItem, mkTaggedItem "a" "1"] :=
  (C9_dedup_drops_falsy_ids _).2 _ (List.mem_cons_self _ _) (Or.inl rfl)

/-! ## Summary-line lemmas -/

theorem quality_ne_empty (sv : String)
    (h : DEFAULT_CONDITION_OPTIONS.contains sv = true) : sv ≠ "" := by
  intro hc
  subst hc
  revert h
  decide

theorem boolLines_foldl (scope : String) :
    ∀ (l : List (String × Bool)) (init : List String),
      l.foldl (fun ls kv =>
        if kv.2 = true then ls ++ [scope ++ ":" ++ kv.1 ++ ":true"] else ls) init
      = init ++ (l.filter (fun kv => kv.2)).map
          (fun kv => scope ++ ":" ++ kv.1 ++ ":true") := by
  intro l
  induction l with
  | nil => intro init; simp
  | cons kv rest ih =>
    intro init
    cases hb : kv.2
    · rw [List.foldl_cons, if_neg (by simp [hb]),
        List.filter_cons_of_neg (by simp [hb]), ih]
    · rw [List.foldl_cons, if_pos (by simp [hb]),
        List.filter_cons_of_pos (by simp [hb]), ih, List.map_cons]
      simp

theorem catLines_foldl (scope : String) :
    ∀ (l : List (String × String)) (init : List String),
      (∀ kv ∈ l, kv.2 ≠ "") →
      l.foldl (fun ls kv =>
        if kv.2 ≠ "" ∧ kv.2 ≠ "N/A" then
          ls ++ [scope ++ ":" ++ kv.1 ++ ":" ++ kv.2] else ls) init
      = init ++ (l.filter (fun kv => kv.2 ≠ "N/A")).map
          (fun kv => scope ++ ":" ++ kv.1 ++ ":" ++ kv.2) := by
  intro l
  induction l with
  | nil => intro init _; simp
  | cons kv rest ih =>
    intro init hv
    have hne : kv.2 ≠ "" := hv kv (List.mem_cons_self kv rest)
    have hrest : ∀ p ∈ rest, p.2 ≠ "" := fun p hp => hv p (List.mem_cons_of_mem kv hp)
    by_cases hna : kv.2 = "N/A"
    · rw [List.foldl_cons, if_neg (by simp [hna]),
        List.filter_cons_of_neg (by simp [hna]), ih _ hrest]
    · rw [List.foldl_cons, if_pos ⟨hne, hna⟩,
        List.filter_cons_of_pos (by simp [hna]), ih _ hrest, List.map_cons]
      simp

theorem subLines_foldl (scope key : String) :
    ∀ (sm : List (String × String)) (init : List String),
      (∀ sv ∈ sm, sv.2 ≠ "") →
      sm.foldl (fun ls sv =>
        if sv.2 ≠ "" ∧ sv.2 ≠ "N/A" then
          ls ++ [scope ++ ":" ++ key ++ ":" ++ sv.1 ++ ":" ++ sv.2] else ls) init
      = init ++ (sm.filter (fun sv => sv.2 ≠ "N/A")).map
          (fun sv => scope ++ ":" ++ key ++ ":" ++ sv.1 ++ ":" ++ sv.2) := by
  intro sm
  induction sm with
  | nil => intro init _; simp
  | cons sv rest ih =>
    intro init hv
    have hne : sv.2 ≠ "" := hv sv (List.mem_cons_self sv rest)
    have hrest : ∀ p ∈ rest, p.2 ≠ "" := fun p hp => hv p (List.mem_cons_of_mem sv hp)
    by_cases hna : sv.2 = "N/A"
    · rw [List.foldl_cons, if_neg (by simp [hna]),
        List.filter_cons_of_neg (by simp [hna]), ih _ hrest]
    · rw [List.foldl_cons, if_pos ⟨hne, hna⟩,
        List.filter_cons_of_pos (by simp [hna]), ih _ hrest, List.map_cons]
      simp

theorem condLines_foldl (scope : String) :
    ∀ (l : List (String × ConditionalAnswer)) (init : List String),
      (∀ kv ∈ l, (∀ c, kv.2.condition = some c → c ≠ "")
        ∧ (∀ sm, kv.2.subitems = some sm → ∀ sv ∈ sm, sv.2 ≠ "")) →
      l.foldl (fun ls kv =>
        if kv.2.exists_ then
          let ls := ls ++ [scope ++ ":" ++ kv.1 ++ ":exists"]
          let ls :=
            match kv.2.condition with
            | some c =>
              if c ≠ "" then ls ++ [scope ++ ":" ++ kv.1 ++ ":condition:" ++ c] else ls
            | none => ls
          match kv.2.subitems with
          | some sm =>
            if sm.isEmpty then ls
            else sm.foldl (fun ls sv =>
              if sv.2 ≠ "" ∧ sv.2 ≠ "N/A" then
                ls ++ [scope ++ ":" ++ kv.1 ++ ":" ++ sv.1 ++ ":" ++ sv.2]
              else ls) ls
          | none => ls
        else ls) init
      = init ++ l.foldr (fun kv acc =>
          (if kv.2.exists_ then
            [scope ++ ":" ++ kv.1 ++ ":exists"]
            ++ (match kv.2.condition with
                | some c => [scope ++ ":" ++ kv.1 ++ ":condition:" ++ c]
                | none => [])
            ++ (((kv.2.subitems.getD []).filter (fun sv => sv.2 ≠ "N/A")).map
                (fun sv => scope ++ ":" ++ kv.1 ++ ":" ++ sv.1 ++ ":" ++ sv.2))
          else []) ++ acc) [] := by
  intro l
  induction l with
  | nil => intro init _; simp
  | cons kv rest ih =>
    intro init hv
    have hkv := hv kv (List.mem_cons_self kv rest)
    have hrest : ∀ p ∈ rest, (∀ c, p.2.condition = some c → c ≠ "")
        ∧ (∀ sm, p.2.subitems = some sm → ∀ sv ∈ sm, sv.2 ≠ "") :=
      fun p hp => hv p (List.mem_cons_of_mem kv hp)
    rw [List.foldl_cons, List.foldr_cons, ih _ hrest]
    cases hex : kv.2.exists_
    · simp [hex]
    · cases hc : kv.2.condition with
      | none =>
        cases hs : kv.2.subitems with
        | none => simp [hex, hc, hs]
        | some sm =>
          by_cases hsm : sm.isEmpty
          · have h0 : sm = [] := List.isEmpty_iff.mp hsm
            subst h0
            simp [hex, hc, hs]
          · have hsub := fun init2 => subLines_foldl scope kv.1 sm init2 (hkv.2 sm hs)
            simp [hex, hc, hs, hsm, hsub, List.append_assoc]
      | some c =>
        have hcne : c ≠ "" := hkv.1 c hc
        cases hs : kv.2.subitems with
        | none => simp [hex, hc, hs, hcne]
        | some sm =>
          by_cases hsm : sm.isEmpty
          · have h0 : sm = [] := List.isEmpty_iff.mp hsm
            subst h0
            simp [hex, hc, hs, hcne]
          · have hsub := fun init2 => subLines_foldl scope kv.1 sm init2 (hkv.2 sm hs)
            simp [hex, hc, hs, hcne, hsm, hsub, List.append_assoc]

/-- Claim C5: summary generation emits one `scope:id:true` line per true
boolean (false booleans emit nothing), one `scope:id:value` line per
categorical whose value is not `"N/A"`, and for each conditional with
`exists = true` the `exists` line, the condition line when non-null, and
one line per subitem whose value is not `"N/A"` — proved as equality with
the claim-worded emitter for every `Quality`-valued evaluation result (the
declared value type of `ChecklistEvaluationOutput`), together with the
concrete house scenario. -/
theorem C5_issue_lines :
    (∀ (scope : String) (answers : ChecklistEvaluationOutput),
      isQualityValued answers = true →
      checklistToIssueLines scope answers = issueLinesSpec scope answers)
    ∧ checklistToIssueLines "house" summaryScenarioAnswers =
        ["house:damage:true", "house:wall:Poor", "house:roof:exists",
         "house:roof:condition:Average", "house:roof:tiles:Poor"] := by
  constructor
  · intro scope answers hq
    rw [isQualityValued, Bool.and_eq_true, List.all_eq_true, List.all_eq_true] at hq
    have hcat : ∀ kv ∈ answers.categoricals, kv.2 ≠ "" := by
      intro kv hkv
      exact quality_ne_empty _ (by simpa using hq.1 kv hkv)
    have hcond : ∀ kv ∈ answers.conditionals,
        (∀ c, kv.2.condition = some c → c ≠ "")
        ∧ (∀ sm, kv.2.subitems = some sm → ∀ sv ∈ sm, sv.2 ≠ "") := by
      intro kv hkv
      have h2 := hq.2 kv hkv
      rw [Bool.and_eq_true] at h2
      constructor
      · intro c hc
        have := h2.1
        rw [hc] at this
        exact quality_ne_empty _ (by simpa using this)
      · intro sm hsm sv hsv
        have := h2.2
        rw [hsm, Option.getD_some, List.all_eq_true] at this
        exact quality_ne_empty _ (by simpa using this sv hsv)
    simp only [checklistToIssueLines, issueLinesSpec]
    rw [boolLines_foldl scope answers.booleans [],
      catLines_foldl scope answers.categoricals _ hcat,
      condLines_foldl scope answers.conditionals _ hcond]
    simp [List.append_assoc]
  · decide

/-- Witness for C5: the source emitter and the claim-worded emitter agree
on the concrete house scenario, whose values are `Quality` strings. -/
theorem C5_issue_lines_witness :
    isQualityValued summaryScenarioAnswers = true
    ∧ checklistToIssueLines "house" summaryScenarioAnswers =
        issueLinesSpec "house" summaryScenarioAnswers :=
  ⟨by decide, C5_issue_lines.1 "house" summaryScenarioAnswers (by decide)⟩

/-! ## Association-list lemmas -/

theorem any_key_iff {α : Type} (m : List (String × α)) (k : String) :
    m.any (fun p => p.1 = k) = true ↔ k ∈ alistKeys m := by
  rw [List.any_eq_true, alistKeys]
  constructor
  · rintro ⟨p, hp, hk⟩
    rw [← (by simpa using hk : p.1 = k)]
    exact List.mem_map_of_mem Prod.fst hp
  · intro hk
    obtain ⟨p, hp, hk'⟩ := List.mem_map.mp hk
    exact ⟨p, hp, by simpa using hk'⟩

theorem keys_map_replace {α : Type} (m : List (String × α)) (k : String) (v : α) :
    alistKeys (m.map (fun p => if p.1 = k then (k, v) else p)) = alistKeys m := by
  rw [alistKeys, alistKeys, List.map_map]
  apply List.map_congr_left
  intro p _
  by_cases hp : p.1 = k
  · simp [hp]
  · simp [hp]

theorem alistGet?_insert_self {α : Type} (m : List (String × α)) (k : String) (v : α) :
    alistGet? (alistInsert m k v) k = some v := by
  rw [alistInsert]
  by_cases hany : m.any (fun p => p.1 = k) = true
  · rw [if_pos hany]
    induction m with
    | nil => cases hany
    | cons q rest ih =>
      by_cases hq : q.1 = k
      · simp [alistGet?, List.find?_cons_of_pos, hq]
      · have hrest : rest.any (fun p => p.1 = k) = true := by
          rw [List.any_cons] at hany
          simpa [hq] using hany
        simp only [List.map_cons, if_neg hq]
        rw [alistGet?, List.find?_cons_of_neg _ (by simpa using hq)]
        exact ih hrest
  · rw [if_neg hany]
    rw [alistGet?, List.find?_append]
    have hnone : m.find? (fun p => p.1 = k) = none := by
      rw [List.find?_eq_none]
      intro p hp hk
      exact hany (List.any_eq_true.mpr ⟨p, hp, hk⟩)
    rw [hnone]
    simp [List.find?_cons]

theorem find_map_replace_ne {α : Type} (m : List (String × α)) (k k' : String)
    (v : α) (h : k' ≠ k) :
    (m.map (fun p => if p.1 = k then (k, v) else p)).find? (fun p => p.1 = k')
      = m.find? (fun p => p.1 = k') := by
  induction m with
  | nil => rfl
  | cons q rest ih =>
    by_cases hq : q.1 = k
    · have hkv : ¬ (((k, v) : String × α).1 = k') := by simpa using fun hc => h hc.symm
      have hqk' : ¬ (q.1 = k') := by
        rw [hq]
        intro hc
        exact h hc.symm
      simp only [List.map_cons, if_pos hq]
      rw [List.find?_cons_of_neg _ (by simpa using hkv),
        List.find?_cons_of_neg _ (by simpa using hqk'), ih]
    · simp only [List.map_cons, if_neg hq]
      by_cases hqk' : q.1 = k'
      · rw [List.find?_cons_of_pos _ (by simpa using hqk'),
          List.find?_cons_of_pos _ (by simpa using hqk')]
      · rw [List.find?_cons_of_neg _ (by simpa using hqk'),
          List.find?_cons_of_neg _ (by simpa using hqk'), ih]

theorem alistGet?_insert_ne {α : Type} (m : List (String × α)) (k k' : String) (v : α)
    (h : k' ≠ k) :
    alistGet? (alistInsert m k v) k' = alistGet? m k' := by
  rw [alistInsert]
  by_cases hany : m.any (fun p => p.1 = k) = true
  · rw [if_pos hany, alistGet?, find_map_replace_ne m k k' v h, alistGet?]
  · rw [if_neg hany]
    rw [alistGet?, List.find?_append]
    have h1 : ([(k, v)].find? (fun p => p.1 = k')) = none := by
      rw [List.find?_eq_none]
      intro p hp
      simp only [List.mem_singleton] at hp
      subst hp
      simpa using fun hc => h hc.symm
    rw [h1, alistGet?]
    cases m.find? (fun p => p.1 = k') <;> rfl

theorem mem_alistInsert {α : Type} (m : List (String × α)) (k : String) (v : α)
    (p : String × α) (hp : p ∈ alistInsert m k v) : p ∈ m ∨ p = (k, v) := by
  rw [alistInsert] at hp
  by_cases hany : m.any (fun q => q.1 = k) = true
  · rw [if_pos hany] at hp
    obtain ⟨q, hq, hrep⟩ := List.mem_map.mp hp
    by_cases hqk : q.1 = k
    · rw [if_pos hqk] at hrep
      exact Or.inr hrep.symm
    · rw [if_neg hqk] at hrep
      exact Or.inl (hrep ▸ hq)
  · rw [if_neg hany] at hp
    rcases List.mem_append.mp hp with h | h
    · exact Or.inl h
    · exact Or.inr (List.mem_singleton.mp h)

theorem mem_keys_alistInsert {α : Type} (m : List (String × α)) (k : String) (v : α)
    (i : String) :
    i ∈ alistKeys (alistInsert m k v) ↔ i ∈ alistKeys m ∨ i = k := by
  rw [alistInsert]
  by_cases hany : m.any (fun q => q.1 = k) = true
  · rw [if_pos hany, keys_map_replace]
    constructor
    · exact Or.inl
    · rintro (h | rfl)
      · exact h
      · exact (any_key_iff m i).mp hany
  · rw [if_neg hany, alistKeys, List.map_append]
    simp [alistKeys]

theorem keys_nodup_alistInsert {α : Type} (m : List (String × α)) (k : String) (v : α)
    (hnd : (alistKeys m).Nodup) : (alistKeys (alistInsert m k v)).Nodup := by
  rw [alistInsert]
  by_cases hany : m.any (fun q => q.1 = k) = true
  · rw [if_pos hany, keys_map_replace]
    exact hnd
  · rw [if_neg hany, alistKeys, List.map_append]
    have hk : k ∉ alistKeys m := fun hc => hany ((any_key_iff m k).mpr hc)
    simp only [List.map_cons, List.map_nil]
    exact List.Nodup.append hnd (by simp) (by
      intro a ha hb
      simp only [List.mem_singleton] at hb
      exact hk (hb ▸ ha))

theorem mem_of_alistGet? {α : Type} (m : List (String × α)) (k : String) (v : α)
    (h : alistGet? m k = some v) : (k, v) ∈ m := by
  rw [alistGet?] at h
  cases hf : m.find? (fun p => p.1 = k) with
  | none => rw [hf] at h; cases h
  | some p =>
    rw [hf] at h
    have hmem := List.mem_of_find?_eq_some hf
    have hkey : p.1 = k := by simpa using List.find?_some hf
    have hval : p.2 = v := by simpa using h
    have : p = (k, v) := Prod.ext hkey hval
    exact this ▸ hmem

theorem alistGet?_isSome_iff {α : Type} (m : List (String × α)) (i : String) :
    (alistGet? m i).isSome = true ↔ i ∈ alistKeys m := by
  rw [alistGet?]
  constructor
  · intro h
    cases hf : m.find? (fun p => p.1 = i) with
    | none => rw [hf] at h; cases h
    | some p =>
      have hkey : p.1 = i := by simpa using List.find?_some hf
      rw [← hkey]
      exact List.mem_map_of_mem Prod.fst (List.mem_of_find?_eq_some hf)
  · intro h
    obtain ⟨p, hp, hkey⟩ := List.mem_map.mp h
    have hsome : (m.find? (fun q => q.1 = i)).isSome = true :=
      List.find?_isSome.mpr ⟨p, hp, by simpa using hkey⟩
    cases hf : m.find? (fun q => q.1 = i) with
    | none => rw [hf] at hsome; cases hsome
    | some q => rfl

theorem alistGet?_eq_none_iff {α : Type} (m : List (String × α)) (i : String) :
    alistGet? m i = none ↔ i ∉ alistKeys m := by
  rw [← alistGet?_isSome_iff]
  cases alistGet? m i <;> simp

theorem alistGet?_of_mem_nodup {α : Type} (m : List (String × α)) (k : String) (v : α)
    (hnd : (alistKeys m).Nodup) (hmem : (k, v) ∈ m) : alistGet? m k = some v := by
  induction m with
  | nil => cases hmem
  | cons q rest ih =>
    rw [alistKeys, List.map_cons, List.nodup_cons] at hnd
    rcases List.mem_cons.mp hmem with rfl | hrest
    · rw [alistGet?, List.find?_cons_of_pos _ (by simp)]
      rfl
    · have hqk : ¬ (q.1 = k) := by
        intro hc
        apply hnd.1
        rw [hc]
        have : (k, v).1 ∈ alistKeys rest := List.mem_map_of_mem Prod.fst hrest
        exact this
      rw [alistGet?, List.find?_cons_of_neg _ (by simpa using hqk)]
      exact ih hnd.2 hrest

theorem countKey_eq_zero {α : Type} (m : List (String × α)) (i : String)
    (h : i ∉ alistKeys m) : countKey m i = 0 := by
  rw [countKey, List.length_eq_zero, List.filter_eq_nil_iff]
  intro p hp hpi
  exact h (by
    rw [← (by simpa using hpi : p.1 = i)]
    exact List.mem_map_of_mem Prod.fst hp)

theorem countKey_eq_one {α : Type} (m : List (String × α)) (i : String)
    (hnd : (alistKeys m).Nodup) (h : i ∈ alistKeys m) : countKey m i = 1 := by
  induction m with
  | nil => cases h
  | cons q rest ih =>
    rw [alistKeys, List.map_cons, List.nodup_cons] at hnd
    by_cases hq : q.1 = i
    · have hrest : i ∉ alistKeys rest := by
        rw [← hq]
        exact hnd.1
      rw [countKey, List.filter_cons_of_pos (by simpa using hq), List.length_cons]
      have := countKey_eq_zero rest i hrest
      rw [countKey] at this
      rw [this]
    · have hmem : i ∈ alistKeys rest := by
        rw [alistKeys, List.map_cons] at h
        rcases List.mem_cons.mp h with hc | hc
        · exact absurd hc.symm hq
        · exact hc
      rw [countKey, List.filter_cons_of_neg (by simpa using hq)]
      exact ih hnd.2 hmem

/-! ## Expected-map lemmas -/

theorem foldl_preserves {σ β : Type} (step : σ → β → σ) (P : σ → Prop) :
    ∀ (l : List β) (s : σ), P s → (∀ b ∈ l, ∀ s', P s' → P (step s' b)) →
      P (l.foldl step s) := by
  intro l
  induction l with
  | nil => intro s hs _; exact hs
  | cons b rest ih =>
    intro s hs hstep
    exact ih (step s b) (hstep b (List.mem_cons_self b rest) s hs)
      (fun b' hb' => hstep b' (List.mem_cons_of_mem b hb'))

theorem emStep_none (m : List (String × NormItem)) (raw : RawItem)
    (h : raw.id = none) : emStep m raw = m := by
  simp [emStep, h]

theorem emStep_empty (m : List (String × NormItem)) (raw : RawItem)
    (h : raw.id = some "") : emStep m raw = m := by
  simp [emStep, h]

theorem emStep_some (m : List (String × NormItem)) (raw : RawItem) (i : String)
    (h : raw.id = some i) (hne : i ≠ "") :
    emStep m raw = alistInsert m i (normalizeRawItem raw) := by
  simp [emStep, h, hne]

theorem em_keys_nodup (items : List RawItem) :
    (alistKeys (buildExpectedMap items)).Nodup := by
  rw [buildExpectedMap]
  apply foldl_preserves emStep (fun m => (alistKeys m).Nodup)
  · simp [alistKeys]
  · intro raw _ m hm
    cases hid : raw.id with
    | none => rw [emStep_none m raw hid]; exact hm
    | some i =>
      by_cases hne : i = ""
      · subst hne
        rw [emStep_empty m raw hid]
        exact hm
      · rw [emStep_some m raw i hid hne]
        exact keys_nodup_alistInsert m i _ hm

theorem em_entry_shape (items : List RawItem) (i : String) (item : NormItem)
    (hmem : (i, item) ∈ buildExpectedMap items) :
    ∃ raw ∈ items, raw.id = some i ∧ i ≠ "" ∧ item = normalizeRawItem raw := by
  rw [buildExpectedMap] at hmem
  revert hmem
  refine foldl_preserves emStep
    (fun m => (i, item) ∈ m →
      ∃ raw ∈ items, raw.id = some i ∧ i ≠ "" ∧ item = normalizeRawItem raw)
    items [] (by intro h; cases h) ?_
  intro raw hraw m hm hmem
  cases hid : raw.id with
  | none =>
    rw [emStep_none m raw hid] at hmem
    exact hm hmem
  | some j =>
    by_cases hne : j = ""
    · subst hne
      rw [emStep_empty m raw hid] at hmem
      exact hm hmem
    · rw [emStep_some m raw j hid hne] at hmem
      rcases mem_alistInsert m j _ _ hmem with h | h
      · exact hm h
      · have hij : i = j := congrArg Prod.fst h
        subst hij
        exact ⟨raw, hraw, hid, hne, congrArg Prod.snd h⟩

theorem em_keys_mono (l : List RawItem) (m0 : List (String × NormItem)) (i : String)
    (h : i ∈ alistKeys m0) : i ∈ alistKeys (l.foldl emStep m0) := by
  apply foldl_preserves emStep (fun m => i ∈ alistKeys m) l m0 h
  intro raw _ m hm
  cases hid : raw.id with
  | none => rw [emStep_none m raw hid]; exact hm
  | some j =>
    by_cases hne : j = ""
    · subst hne
      rw [emStep_empty m raw hid]
      exact hm
    · rw [emStep_some m raw j hid hne]
      exact (mem_keys_alistInsert m j _ i).mpr (Or.inl hm)

theorem em_keys_of_item :
    ∀ (l : List RawItem) (m0 : List (String × NormItem)) (raw : RawItem) (i : String),
      raw ∈ l → raw.id = some i → i ≠ "" → i ∈ alistKeys (l.foldl emStep m0) := by
  intro l
  induction l with
  | nil => intro m0 raw i h; cases h
  | cons b rest ih =>
    intro m0 raw i hmem hid hne
    rw [List.foldl_cons]
    rcases List.mem_cons.mp hmem with rfl | hrest
    · apply em_keys_mono
      rw [emStep_some m0 raw i hid hne]
      exact (mem_keys_alistInsert m0 i _ i).mpr (Or.inr rfl)
    · exact ih (emStep m0 b) raw i hrest hid hne

/-! ## Reported-phase lemmas -/

theorem pboolStep_cases (em : List (String × NormItem)) (m : List (String × Bool))
    (kv : String × JVal) :
    pboolStep em m kv = m
    ∨ ∃ v, pboolStep em m kv = alistInsert m kv.1 v
        ∧ (alistGet? em kv.1).isSome = true := by
  rw [pboolStep]
  by_cases h : (alistGet? em kv.1).isSome = true
  · exact Or.inr ⟨jvalTruthy kv.2, by rw [if_pos h], h⟩
  · exact Or.inl (by rw [if_neg h])

theorem pcatStep_cases (em : List (String × NormItem)) (m : List (String × String))
    (kv : String × JVal) :
    pcatStep em m kv = m
    ∨ ∃ v, pcatStep em m kv = alistInsert m kv.1 v
        ∧ (alistGet? em kv.1).isSome = true := by
  cases h : alistGet? em kv.1 with
  | none => exact Or.inl (by simp [pcatStep, h])
  | some item =>
    exact Or.inr ⟨normalizeOptionValue kv.2 item.options, by simp [pcatStep, h],
      rfl⟩

theorem pcondStep_cases (em : List (String × NormItem))
    (m : List (String × ConditionalAnswer)) (kv : String × JVal) :
    pcondStep em m kv = m
    ∨ ∃ v, pcondStep em m kv = alistInsert m kv.1 v
        ∧ (alistGet? em kv.1).isSome = true := by
  cases h : alistGet? em kv.1 with
  | none => exact Or.inl (by cases kv.2 <;> simp [pcondStep, h])
  | some item =>
    cases hv : kv.2 with
    | obj vkvs =>
      exact Or.inr ⟨reportedConditional item vkvs, by simp [pcondStep, h, hv],
        rfl⟩
    | null => exact Or.inl (by simp [pcondStep, h, hv])
    | b bv => exact Or.inl (by simp [pcondStep, h, hv])
    | num n => exact Or.inl (by simp [pcondStep, h, hv])
    | s sv => exact Or.inl (by simp [pcondStep, h, hv])
    | arr l => exact Or.inl (by simp [pcondStep, h, hv])

theorem process_keys_sub {α : Type}
    (step : List (String × α) → (String × JVal) → List (String × α))
    (em : List (String × NormItem))
    (hstep : ∀ m kv, step m kv = m
      ∨ ∃ v, step m kv = alistInsert m kv.1 v ∧ (alistGet? em kv.1).isSome = true) :
    ∀ (kvs : List (String × JVal)) (m0 : List (String × α)),
      (∀ j ∈ alistKeys m0, j ∈ alistKeys em) →
      ∀ j ∈ alistKeys (kvs.foldl step m0), j ∈ alistKeys em := by
  intro kvs m0 h0
  refine foldl_preserves step (fun m => ∀ j ∈ alistKeys m, j ∈ alistKeys em) kvs m0 h0 ?_
  intro kv _ m hm j hj
  rcases hstep m kv with he | ⟨v, he, hin⟩
  · rw [he] at hj
    exact hm j hj
  · rw [he] at hj
    rcases (mem_keys_alistInsert m kv.1 v j).mp hj with h | rfl
    · exact hm j h
    · exact (alistGet?_isSome_iff em kv.1).mp hin

theorem process_keys_nodup {α : Type}
    (step : List (String × α) → (String × JVal) → List (String × α))
    (hstep : ∀ m kv, step m kv = m ∨ ∃ v, step m kv = alistInsert m kv.1 v) :
    ∀ (kvs : List (String × JVal)) (m0 : List (String × α)),
      (alistKeys m0).Nodup → (alistKeys (kvs.foldl step m0)).Nodup := by
  intro kvs m0 h0
  refine foldl_preserves step (fun m => (alistKeys m).Nodup) kvs m0 h0 ?_
  intro kv _ m hm
  rcases hstep m kv with he | ⟨v, he⟩
  · rw [he]; exact hm
  · rw [he]; exact keys_nodup_alistInsert m kv.1 v hm

theorem process_omitted {α : Type}
    (step : List (String × α) → (String × JVal) → List (String × α))
    (hstep : ∀ m kv, step m kv = m ∨ ∃ v, step m kv = alistInsert m kv.1 v) :
    ∀ (kvs : List (String × JVal)) (m0 : List (String × α)) (i : String),
      (∀ kv ∈ kvs, kv.1 ≠ i) → alistGet? m0 i = none →
      alistGet? (kvs.foldl step m0) i = none := by
  intro kvs m0 i hkvs h0
  refine foldl_preserves step (fun m => alistGet? m i = none) kvs m0 h0 ?_
  intro kv hkv m hm
  rcases hstep m kv with he | ⟨v, he⟩
  · rw [he]; exact hm
  · rw [he, alistGet?_insert_ne m kv.1 i v (fun hc => hkvs kv hkv hc.symm)]
    exact hm

/-! ## Defaults-phase lemmas -/

theorem applyDefaultsStep_lookup_ne (r : ChecklistEvaluationOutput)
    (e : String × NormItem) (i : String) (h : e.1 ≠ i) :
    alistGet? (applyDefaultsStep r e).booleans i = alistGet? r.booleans i
    ∧ alistGet? (applyDefaultsStep r e).categoricals i = alistGet? r.categoricals i
    ∧ alistGet? (applyDefaultsStep r e).conditionals i = alistGet? r.conditionals i := by
  have hne : i ≠ e.1 := fun hc => h hc.symm
  rw [applyDefaultsStep]
  by_cases hb : e.2.type = some "boolean"
  · rw [if_pos hb]
    by_cases hex : (alistGet? r.booleans e.1).isSome = true
    · rw [if_pos hex]
      exact ⟨rfl, rfl, rfl⟩
    · rw [if_neg hex]
      exact ⟨alistGet?_insert_ne r.booleans e.1 i false hne, rfl, rfl⟩
  · rw [if_neg hb]
    by_cases hc : e.2.type = some "categorical"
    · rw [if_pos hc]
      exact ⟨rfl, alistGet?_insert_ne r.categoricals e.1 i _ hne, rfl⟩
    · rw [if_neg hc]
      by_cases hd : e.2.type = some "conditional"
      · rw [if_pos hd]
        exact ⟨rfl, rfl, alistGet?_insert_ne r.conditionals e.1 i _ hne⟩
      · rw [if_neg hd]
        exact ⟨rfl, rfl, rfl⟩

theorem defaults_fold_lookup_ne (l : List (String × NormItem))
    (r : ChecklistEvaluationOutput) (i : String) (h : ∀ e ∈ l, e.1 ≠ i) :
    alistGet? (l.foldl applyDefaultsStep r).booleans i = alistGet? r.booleans i
    ∧ alistGet? (l.foldl applyDefaultsStep r).categoricals i
        = alistGet? r.categoricals i
    ∧ alistGet? (l.foldl applyDefaultsStep r).conditionals i
        = alistGet? r.conditionals i := by
  induction l generalizing r with
  | nil => exact ⟨rfl, rfl, rfl⟩
  | cons e rest ih =>
    rw [List.foldl_cons]
    have hstep := applyDefaultsStep_lookup_ne r e i (h e (List.mem_cons_self e rest))
    have hrest := ih (applyDefaultsStep r e) (fun e' he' => h e' (List.mem_cons_of_mem e he'))
    exact ⟨hrest.1.trans hstep.1, hrest.2.1.trans hstep.2.1, hrest.2.2.trans hstep.2.2⟩

theorem defaults_fold_localize (l : List (String × NormItem))
    (r : ChecklistEvaluationOutput) (i : String) (item : NormItem)
    (hnd : (alistKeys l).Nodup) (hmem : (i, item) ∈ l) :
    ∃ r' : ChecklistEvaluationOutput,
      (alistGet? r'.booleans i = alistGet? r.booleans i
        ∧ alistGet? r'.categoricals i = alistGet? r.categoricals i
        ∧ alistGet? r'.conditionals i = alistGet? r.conditionals i)
      ∧ (alistGet? (l.foldl applyDefaultsStep r).booleans i
            = alistGet? (applyDefaultsStep r' (i, item)).booleans i
        ∧ alistGet? (l.foldl applyDefaultsStep r).categoricals i
            = alistGet? (applyDefaultsStep r' (i, item)).categoricals i
        ∧ alistGet? (l.foldl applyDefaultsStep r).conditionals i
            = alistGet? (applyDefaultsStep r' (i, item)).conditionals i) := by
  induction l generalizing r with
  | nil => cases hmem
  | cons e rest ih =>
    rw [alistKeys, List.map_cons, List.nodup_cons] at hnd
    rcases List.mem_cons.mp hmem with rfl | hrest
    · refine ⟨r, ⟨rfl, rfl, rfl⟩, ?_⟩
      rw [List.foldl_cons]
      have hrestne : ∀ e' ∈ rest, e'.1 ≠ (i, item).1 := by
        intro e' he' hc
        apply hnd.1
        rw [← hc]
        exact List.mem_map_of_mem Prod.fst he'
      exact defaults_fold_lookup_ne rest (applyDefaultsStep r (i, item)) (i, item).1 hrestne
    · have hie : (i, item).1 ≠ e.1 := by
        intro hc
        apply hnd.1
        rw [← hc]
        exact List.mem_map_of_mem Prod.fst hrest
      obtain ⟨r', hr', hfold⟩ := ih (applyDefaultsStep r e) hnd.2 hrest
      have hstep := applyDefaultsStep_lookup_ne r e i (fun hc => hie hc.symm)
      refine ⟨r', ⟨hr'.1.trans hstep.1, hr'.2.1.trans hstep.2.1,
        hr'.2.2.trans hstep.2.2⟩, ?_⟩
      rw [List.foldl_cons]
      exact hfold

theorem applyDefaultsStep_self_bool (r : ChecklistEvaluationOutput)
    (e : String × NormItem) (h : e.2.type = some "boolean") :
    alistGet? (applyDefaultsStep r e).booleans e.1
      = some ((alistGet? r.booleans e.1).getD false)
    ∧ alistGet? (applyDefaultsStep r e).categoricals e.1 = alistGet? r.categoricals e.1
    ∧ alistGet? (applyDefaultsStep r e).conditionals e.1
        = alistGet? r.conditionals e.1 := by
  rw [applyDefaultsStep]
  rw [if_pos h]
  cases hex : alistGet? r.booleans e.1 with
  | some v => rw [if_pos (by rfl)]; exact ⟨by rw [hex]; rfl, rfl, rfl⟩
  | none =>
    rw [if_neg (by simp)]
    exact ⟨by rw [alistGet?_insert_self]; rfl, rfl, rfl⟩

theorem applyDefaultsStep_self_cat (r : ChecklistEvaluationOutput)
    (e : String × NormItem) (h : e.2.type = some "categorical") :
    alistGet? (applyDefaultsStep r e).categoricals e.1
      = some (defaultedCategorical (alistGet? r.categoricals e.1) e.2)
    ∧ alistGet? (applyDefaultsStep r e).booleans e.1 = alistGet? r.booleans e.1
    ∧ alistGet? (applyDefaultsStep r e).conditionals e.1
        = alistGet? r.conditionals e.1 := by
  rw [applyDefaultsStep]
  rw [if_neg (by rw [h]; decide), if_pos h]
  exact ⟨alistGet?_insert_self r.categoricals e.1 _, rfl, rfl⟩

theorem applyDefaultsStep_self_cond (r : ChecklistEvaluationOutput)
    (e : String × NormItem) (h : e.2.type = some "conditional") :
    alistGet? (applyDefaultsStep r e).conditionals e.1
      = some (defaultedConditional (alistGet? r.conditionals e.1) e.2)
    ∧ alistGet? (applyDefaultsStep r e).booleans e.1 = alistGet? r.booleans e.1
    ∧ alistGet? (applyDefaultsStep r e).categoricals e.1
        = alistGet? r.categoricals e.1 := by
  rw [applyDefaultsStep]
  rw [if_neg (by rw [h]; decide), if_neg (by rw [h]; decide), if_pos h]
  exact ⟨alistGet?_insert_self r.conditionals e.1 _, rfl, rfl⟩

/-! ## Reported-phase map properties -/

theorem reportedPhase_keys_sub (parsed : JVal) (em : List (String × NormItem)) :
    (∀ j ∈ alistKeys (reportedPhase parsed em).booleans, j ∈ alistKeys em)
    ∧ (∀ j ∈ alistKeys (reportedPhase parsed em).categoricals, j ∈ alistKeys em)
    ∧ (∀ j ∈ alistKeys (reportedPhase parsed em).conditionals, j ∈ alistKeys em) := by
  cases parsed with
  | obj pkvs =>
    refine ⟨?_, ?_, ?_⟩
    · show ∀ j ∈ alistKeys (match getDictDefault pkvs "booleans" with
        | some kvs => processBooleans em kvs
        | none => []), j ∈ alistKeys em
      cases getDictDefault pkvs "booleans" with
      | none => intro j hj; cases hj
      | some kvs =>
        exact process_keys_sub (pboolStep em) em (pboolStep_cases em) kvs []
          (by intro j hj; cases hj)
    · show ∀ j ∈ alistKeys (match getDictDefault pkvs "categoricals" with
        | some kvs => processCategoricals em kvs
        | none => []), j ∈ alistKeys em
      cases getDictDefault pkvs "categoricals" with
      | none => intro j hj; cases hj
      | some kvs =>
        exact process_keys_sub (pcatStep em) em (pcatStep_cases em) kvs []
          (by intro j hj; cases hj)
    · show ∀ j ∈ alistKeys (match getDictDefault pkvs "conditionals" with
        | some kvs => processConditionals em kvs
        | none => []), j ∈ alistKeys em
      cases getDictDefault pkvs "conditionals" with
      | none => intro j hj; cases hj
      | some kvs =>
        exact process_keys_sub (pcondStep em) em (pcondStep_cases em) kvs []
          (by intro j hj; cases hj)
  | null => exact ⟨fun j hj => absurd hj (by simp [alistKeys, reportedPhase]),
      fun j hj => absurd hj (by simp [alistKeys, reportedPhase]),
      fun j hj => absurd hj (by simp [alistKeys, reportedPhase])⟩
  | b bv => exact ⟨fun j hj => absurd hj (by simp [alistKeys, reportedPhase]),
      fun j hj => absurd hj (by simp [alistKeys, reportedPhase]),
      fun j hj => absurd hj (by simp [alistKeys, reportedPhase])⟩
  | num n => exact ⟨fun j hj => absurd hj (by simp [alistKeys, reportedPhase]),
      fun j hj => absurd hj (by simp [alistKeys, reportedPhase]),
      fun j hj => absurd hj (by simp [alistKeys, reportedPhase])⟩
  | s sv => exact ⟨fun j hj => absurd hj (by simp [alistKeys, reportedPhase]),
      fun j hj => absurd hj (by simp [alistKeys, reportedPhase]),
      fun j hj => absurd hj (by simp [alistKeys, reportedPhase])⟩
  | arr l => exact ⟨fun j hj => absurd hj (by simp [alistKeys, reportedPhase]),
      fun j hj => absurd hj (by simp [alistKeys, reportedPhase]),
      fun j hj => absurd hj (by simp [alistKeys, reportedPhase])⟩

theorem reportedPhase_keys_nodup (parsed : JVal) (em : List (String × NormItem)) :
    (alistKeys (reportedPhase parsed em).booleans).Nodup
    ∧ (alistKeys (reportedPhase parsed em).categoricals).Nodup
    ∧ (alistKeys (reportedPhase parsed em).conditionals).Nodup := by
  cases parsed with
  | obj pkvs =>
    refine ⟨?_, ?_, ?_⟩
    · show (alistKeys (match getDictDefault pkvs "booleans" with
        | some kvs => processBooleans em kvs
        | none => [])).Nodup
      cases getDictDefault pkvs "booleans" with
      | none => simp [alistKeys]
      | some kvs =>
        exact process_keys_nodup (pboolStep em)
          (fun m kv => (pboolStep_cases em m kv).imp id (fun ⟨v, he, _⟩ => ⟨v, he⟩))
          kvs [] (by simp [alistKeys])
    · show (alistKeys (match getDictDefault pkvs "categoricals" with
        | some kvs => processCategoricals em kvs
        | none => [])).Nodup
      cases getDictDefault pkvs "categoricals" with
      | none => simp [alistKeys]
      | some kvs =>
        exact process_keys_nodup (pcatStep em)
          (fun m kv => (pcatStep_cases em m kv).imp id (fun ⟨v, he, _⟩ => ⟨v, he⟩))
          kvs [] (by simp [alistKeys])
    · show (alistKeys (match getDictDefault pkvs "conditionals" with
        | some kvs => processConditionals em kvs
        | none => [])).Nodup
      cases getDictDefault pkvs "conditionals" with
      | none => simp [alistKeys]
      | some kvs =>
        exact process_keys_nodup (pcondStep em)
          (fun m kv => (pcondStep_cases em m kv).imp id (fun ⟨v, he, _⟩ => ⟨v, he⟩))
          kvs [] (by simp [alistKeys])
  | null => exact ⟨by simp [alistKeys, reportedPhase], by simp [alistKeys, reportedPhase],
      by simp [alistKeys, reportedPhase]⟩
  | b bv => exact ⟨by simp [alistKeys, reportedPhase], by simp [alistKeys, reportedPhase],
      by simp [alistKeys, reportedPhase]⟩
  | num n => exact ⟨by simp [alistKeys, reportedPhase], by simp [alistKeys, reportedPhase],
      by simp [alistKeys, reportedPhase]⟩
  | s sv => exact ⟨by simp [alistKeys, reportedPhase], by simp [alistKeys, reportedPhase],
      by simp [alistKeys, reportedPhase]⟩
  | arr l => exact ⟨by simp [alistKeys, reportedPhase], by simp [alistKeys, reportedPhase],
      by simp [alistKeys, reportedPhase]⟩

theorem reportedPhase_omitted (pkvs : List (String × JVal))
    (em : List (String × NormItem)) (i : String)
    (hb : sectionOmits pkvs "booleans" i = true)
    (hc : sectionOmits pkvs "categoricals" i = true)
    (hd : sectionOmits pkvs "conditionals" i = true) :
    alistGet? (reportedPhase (JVal.obj pkvs) em).booleans i = none
    ∧ alistGet? (reportedPhase (JVal.obj pkvs) em).categoricals i = none
    ∧ alistGet? (reportedPhase (JVal.obj pkvs) em).conditionals i = none := by
  refine ⟨?_, ?_, ?_⟩
  · show alistGet? (match getDictDefault pkvs "booleans" with
      | some kvs => processBooleans em kvs
      | none => []) i = none
    rw [sectionOmits] at hb
    cases hsec : getDictDefault pkvs "booleans" with
    | none => rfl
    | some kvs =>
      rw [hsec] at hb
      have hnone : alistGet? kvs i = none := by
        simpa using hb
      refine process_omitted (pboolStep em)
        (fun m kv => (pboolStep_cases em m kv).imp id (fun ⟨v, he, _⟩ => ⟨v, he⟩))
        kvs [] i ?_ rfl
      intro kv hkv hc'
      rw [alistGet?_eq_none_iff] at hnone
      exact hnone (hc' ▸ List.mem_map_of_mem Prod.fst hkv)
  · show alistGet? (match getDictDefault pkvs "categoricals" with
      | some kvs => processCategoricals em kvs
      | none => []) i = none
    rw [sectionOmits] at hc
    cases hsec : getDictDefault pkvs "categoricals" with
    | none => rfl
    | some kvs =>
      rw [hsec] at hc
      have hnone : alistGet? kvs i = none := by
        simpa using hc
      refine process_omitted (pcatStep em)
        (fun m kv => (pcatStep_cases em m kv).imp id (fun ⟨v, he, _⟩ => ⟨v, he⟩))
        kvs [] i ?_ rfl
      intro kv hkv hc'
      rw [alistGet?_eq_none_iff] at hnone
      exact hnone (hc' ▸ List.mem_map_of_mem Prod.fst hkv)
  · show alistGet? (match getDictDefault pkvs "conditionals" with
      | some kvs => processConditionals em kvs
      | none => []) i = none
    rw [sectionOmits] at hd
    cases hsec : getDictDefault pkvs "conditionals" with
    | none => rfl
    | some kvs =>
      rw [hsec] at hd
      have hnone : alistGet? kvs i = none := by
        simpa using hd
      refine process_omitted (pcondStep em)
        (fun m kv => (pcondStep_cases em m kv).imp id (fun ⟨v, he, _⟩ => ⟨v, he⟩))
        kvs [] i ?_ rfl
      intro kv hkv hc'
      rw [alistGet?_eq_none_iff] at hnone
      exact hnone (hc' ▸ List.mem_map_of_mem Prod.fst hkv)

theorem applyDefaultsStep_maps (r : ChecklistEvaluationOutput) (e : String × NormItem) :
    ((applyDefaultsStep r e).booleans = r.booleans
      ∨ ∃ v, (applyDefaultsStep r e).booleans = alistInsert r.booleans e.1 v)
    ∧ ((applyDefaultsStep r e).categoricals = r.categoricals
      ∨ ∃ v, (applyDefaultsStep r e).categoricals = alistInsert r.categoricals e.1 v)
    ∧ ((applyDefaultsStep r e).conditionals = r.conditionals
      ∨ ∃ v, (applyDefaultsStep r e).conditionals = alistInsert r.conditionals e.1 v) := by
  rw [applyDefaultsStep]
  by_cases hb : e.2.type = some "boolean"
  · rw [if_pos hb]
    by_cases hex : (alistGet? r.booleans e.1).isSome = true
    · rw [if_pos hex]
      exact ⟨Or.inl rfl, Or.inl rfl, Or.inl rfl⟩
    · rw [if_neg hex]
      exact ⟨Or.inr ⟨false, rfl⟩, Or.inl rfl, Or.inl rfl⟩
  · rw [if_neg hb]
    by_cases hc : e.2.type = some "categorical"
    · rw [if_pos hc]
      exact ⟨Or.inl rfl, Or.inr ⟨_, rfl⟩, Or.inl rfl⟩
    · rw [if_neg hc]
      by_cases hd : e.2.type = some "conditional"
      · rw [if_pos hd]
        exact ⟨Or.inl rfl, Or.inl rfl, Or.inr ⟨_, rfl⟩⟩
      · rw [if_neg hd]
        exact ⟨Or.inl rfl, Or.inl rfl, Or.inl rfl⟩

theorem defaults_fold_keys_sub (l : List (String × NormItem))
    (r : ChecklistEvaluationOutput) (S : String → Prop) (hl : ∀ e ∈ l, S e.1)
    (h0b : ∀ j ∈ alistKeys r.booleans, S j)
    (h0c : ∀ j ∈ alistKeys r.categoricals, S j)
    (h0d : ∀ j ∈ alistKeys r.conditionals, S j) :
    (∀ j ∈ alistKeys (l.foldl applyDefaultsStep r).booleans, S j)
    ∧ (∀ j ∈ alistKeys (l.foldl applyDefaultsStep r).categoricals, S j)
    ∧ (∀ j ∈ alistKeys (l.foldl applyDefaultsStep r).conditionals, S j) := by
  refine foldl_preserves applyDefaultsStep
    (fun r' => (∀ j ∈ alistKeys r'.booleans, S j)
      ∧ (∀ j ∈ alistKeys r'.categoricals, S j)
      ∧ (∀ j ∈ alistKeys r'.conditionals, S j)) l r ⟨h0b, h0c, h0d⟩ ?_
  intro e he r' hr'
  obtain ⟨hmb, hmc, hmd⟩ := applyDefaultsStep_maps r' e
  refine ⟨?_, ?_, ?_⟩
  · rcases hmb with hsame | ⟨v, hins⟩
    · rw [hsame]; exact hr'.1
    · rw [hins]
      intro j hj
      rcases (mem_keys_alistInsert r'.booleans e.1 v j).mp hj with h | rfl
      · exact hr'.1 j h
      · exact hl e he
  · rcases hmc with hsame | ⟨v, hins⟩
    · rw [hsame]; exact hr'.2.1
    · rw [hins]
      intro j hj
      rcases (mem_keys_alistInsert r'.categoricals e.1 v j).mp hj with h | rfl
      · exact hr'.2.1 j h
      · exact hl e he
  · rcases hmd with hsame | ⟨v, hins⟩
    · rw [hsame]; exact hr'.2.2
    · rw [hins]
      intro j hj
      rcases (mem_keys_alistInsert r'.conditionals e.1 v j).mp hj with h | rfl
      · exact hr'.2.2 j h
      · exact hl e he

theorem defaults_fold_keys_nodup (l : List (String × NormItem))
    (r : ChecklistEvaluationOutput)
    (h0b : (alistKeys r.booleans).Nodup) (h0c : (alistKeys r.categoricals).Nodup)
    (h0d : (alistKeys r.conditionals).Nodup) :
    (alistKeys (l.foldl applyDefaultsStep r).booleans).Nodup
    ∧ (alistKeys (l.foldl applyDefaultsStep r).categoricals).Nodup
    ∧ (alistKeys (l.foldl applyDefaultsStep r).conditionals).Nodup := by
  refine foldl_preserves applyDefaultsStep
    (fun r' => (alistKeys r'.booleans).Nodup ∧ (alistKeys r'.categoricals).Nodup
      ∧ (alistKeys r'.conditionals).Nodup) l r ⟨h0b, h0c, h0d⟩ ?_
  intro e _ r' hr'
  obtain ⟨hmb, hmc, hmd⟩ := applyDefaultsStep_maps r' e
  refine ⟨?_, ?_, ?_⟩
  · rcases hmb with hsame | ⟨v, hins⟩
    · rw [hsame]; exact hr'.1
    · rw [hins]; exact keys_nodup_alistInsert _ _ _ hr'.1
  · rcases hmc with hsame | ⟨v, hins⟩
    · rw [hsame]; exact hr'.2.1
    · rw [hins]; exact keys_nodup_alistInsert _ _ _ hr'.2.1
  · rcases hmd with hsame | ⟨v, hins⟩
    · rw [hsame]; exact hr'.2.2
    · rw [hins]; exact keys_nodup_alistInsert _ _ _ hr'.2.2

theorem parse_eq_fold (parsed : JVal) (items : List RawItem) :
    parseChecklistResponse parsed items
      = (buildExpectedMap items).foldl applyDefaultsStep
          (reportedPhase parsed (buildExpectedMap items)) := rfl

theorem parse_lookup_kind (parsed : JVal) (items : List RawItem) (i : String)
    (item : NormItem) (hmem : (i, item) ∈ buildExpectedMap items) :
    (item.type = some "boolean" →
      (alistGet? (parseChecklistResponse parsed items).booleans i).isSome = true)
    ∧ (item.type = some "categorical" →
      (alistGet? (parseChecklistResponse parsed items).categoricals i).isSome = true)
    ∧ (item.type = some "conditional" →
      (alistGet? (parseChecklistResponse parsed items).conditionals i).isSome = true) := by
  obtain ⟨r', _, hlook⟩ := defaults_fold_localize (buildExpectedMap items)
    (reportedPhase parsed (buildExpectedMap items)) i item (em_keys_nodup items) hmem
  rw [parse_eq_fold]
  refine ⟨?_, ?_, ?_⟩
  · intro ht
    rw [hlook.1, (applyDefaultsStep_self_bool r' (i, item) ht).1]
    rfl
  · intro ht
    rw [hlook.2.1, (applyDefaultsStep_self_cat r' (i, item) ht).1]
    rfl
  · intro ht
    rw [hlook.2.2, (applyDefaultsStep_self_cond r' (i, item) ht).1]
    rfl

/-- Claim C1: for every expected item set whose items declare one of the
three kinds, and for every parsed model response (empty, malformed or
arbitrary), the returned result has exactly one entry of the matching kind
for each expected id, and the union of the key sets of the three maps is
exactly the expected id set. -/
theorem C1_response_covers_batch :
    ∀ (parsed : JVal) (items : List RawItem),
      (∀ raw ∈ items, raw.type = some "boolean" ∨ raw.type = some "categorical"
        ∨ raw.type = some "conditional") →
      (∀ i item, (i, item) ∈ buildExpectedMap items →
        (item.type = some "boolean" →
          countKey (parseChecklistResponse parsed items).booleans i = 1)
        ∧ (item.type = some "categorical" →
          countKey (parseChecklistResponse parsed items).categoricals i = 1)
        ∧ (item.type = some "conditional" →
          countKey (parseChecklistResponse parsed items).conditionals i = 1))
      ∧ (∀ i,
          (i ∈ alistKeys (parseChecklistResponse parsed items).booleans
           ∨ i ∈ alistKeys (parseChecklistResponse parsed items).categoricals
           ∨ i ∈ alistKeys (parseChecklistResponse parsed items).conditionals)
          ↔ i ∈ alistKeys (buildExpectedMap items)) := by
  intro parsed items hkinds
  have hrp_sub := reportedPhase_keys_sub parsed (buildExpectedMap items)
  have hrp_nodup := reportedPhase_keys_nodup parsed (buildExpectedMap items)
  have hout_nodup := defaults_fold_keys_nodup (buildExpectedMap items)
    (reportedPhase parsed (buildExpectedMap items)) hrp_nodup.1 hrp_nodup.2.1
    hrp_nodup.2.2
  have hout_sub := defaults_fold_keys_sub (buildExpectedMap items)
    (reportedPhase parsed (buildExpectedMap items))
    (fun j => j ∈ alistKeys (buildExpectedMap items))
    (fun e he => List.mem_map_of_mem Prod.fst he)
    hrp_sub.1 hrp_sub.2.1 hrp_sub.2.2
  constructor
  · intro i item hmem
    have hk := parse_lookup_kind parsed items i item hmem
    refine ⟨?_, ?_, ?_⟩
    · intro ht
      refine countKey_eq_one _ i (by rw [parse_eq_fold] at *; exact hout_nodup.1) ?_
      rw [← alistGet?_isSome_iff]
      exact hk.1 ht
    · intro ht
      refine countKey_eq_one _ i (by rw [parse_eq_fold] at *; exact hout_nodup.2.1) ?_
      rw [← alistGet?_isSome_iff]
      exact hk.2.1 ht
    · intro ht
      refine countKey_eq_one _ i (by rw [parse_eq_fold] at *; exact hout_nodup.2.2) ?_
      rw [← alistGet?_isSome_iff]
      exact hk.2.2 ht
  · intro i
    constructor
    · intro h
      rw [parse_eq_fold] at h
      rcases h with h | h | h
      · exact hout_sub.1 i h
      · exact hout_sub.2.1 i h
      · exact hout_sub.2.2 i h
    · intro h
      obtain ⟨p, hp, hkey⟩ := List.mem_map.mp h
      have hmem : (i, p.2) ∈ buildExpectedMap items := by
        rw [← hkey]
        exact hp
      obtain ⟨raw, hraw, _, _, hshape⟩ := em_entry_shape items i p.2 hmem
      have htype : p.2.type = raw.type := by rw [hshape]; rfl
      have hk := parse_lookup_kind parsed items i p.2 hmem
      rcases hkinds raw hraw with ht | ht | ht
      · exact Or.inl ((alistGet?_isSome_iff _ i).mp (hk.1 (htype.trans ht)))
      · exact Or.inr (Or.inl ((alistGet?_isSome_iff _ i).mp (hk.2.1 (htype.trans ht))))
      · exact Or.inr (Or.inr ((alistGet?_isSome_iff _ i).mp (hk.2.2 (htype.trans ht))))

/-- Witness for C1: a one-item boolean batch against the empty (malformed)
response yields exactly one boolean entry for the expected id. -/
theorem C1_response_covers_batch_witness :
    countKey (parseChecklistResponse (JVal.obj [])
      [mkTaggedItem "flag" "boolean"]).booleans "flag" = 1 :=
  ((C1_response_covers_batch (JVal.obj []) [mkTaggedItem "flag" "boolean"]
      (by decide)).1 "flag" (normalizeRawItem (mkTaggedItem "flag" "boolean"))
      (by decide)).1 (by decide)

/-! ## Subitem-fold lemmas -/

theorem subStep_none (val : NormSub → String → String) (m : List (String × String))
    (sub : NormSub) (h : sub.id = none) : subStep val m sub = m := by
  simp [subStep, h]

theorem subStep_empty (val : NormSub → String → String) (m : List (String × String))
    (sub : NormSub) (h : sub.id = some "") : subStep val m sub = m := by
  simp [subStep, h]

theorem subStep_some (val : NormSub → String → String) (m : List (String × String))
    (sub : NormSub) (sid : String) (h : sub.id = some sid) (hne : sid ≠ "") :
    subStep val m sub = alistInsert m sid (val sub sid) := by
  simp [subStep, h, hne]

theorem subitemsFold_entry_shape (val : NormSub → String → String)
    (subs : List NormSub) (p : String × String) (hp : p ∈ subitemsFold val subs) :
    ∃ sub ∈ subs, sub.id = some p.1 ∧ p.1 ≠ "" ∧ p.2 = val sub p.1 := by
  rw [subitemsFold] at hp
  revert hp
  refine foldl_preserves (subStep val)
    (fun m => p ∈ m → ∃ sub ∈ subs, sub.id = some p.1 ∧ p.1 ≠ "" ∧ p.2 = val sub p.1)
    subs [] (by intro h; cases h) ?_
  intro sub hsub m hm hp
  cases hid : sub.id with
  | none =>
    rw [subStep_none val m sub hid] at hp
    exact hm hp
  | some sid =>
    by_cases hne : sid = ""
    · subst hne
      rw [subStep_empty val m sub hid] at hp
      exact hm hp
    · rw [subStep_some val m sub sid hid hne] at hp
      rcases mem_alistInsert m sid _ _ hp with h | h
      · exact hm h
      · have h1 : p.1 = sid := congrArg Prod.fst h
        exact ⟨sub, hsub, h1 ▸ hid, h1 ▸ hne, by rw [congrArg Prod.snd h, h1]⟩

theorem subitemsFold_keys_mono (val : NormSub → String → String)
    (l : List NormSub) (m0 : List (String × String)) (sid : String)
    (h : sid ∈ alistKeys m0) : sid ∈ alistKeys (l.foldl (subStep val) m0) := by
  apply foldl_preserves (subStep val) (fun m => sid ∈ alistKeys m) l m0 h
  intro sub _ m hm
  cases hid : sub.id with
  | none => rw [subStep_none val m sub hid]; exact hm
  | some j =>
    by_cases hne : j = ""
    · subst hne
      rw [subStep_empty val m sub hid]
      exact hm
    · rw [subStep_some val m sub j hid hne]
      exact (mem_keys_alistInsert m j _ sid).mpr (Or.inl hm)

theorem subitemsFold_adds (val : NormSub → String → String) :
    ∀ (l : List NormSub) (m0 : List (String × String)) (sub : NormSub) (sid : String),
      sub ∈ l → sub.id = some sid → sid ≠ "" →
      sid ∈ alistKeys (l.foldl (subStep val) m0) := by
  intro l
  induction l with
  | nil => intro m0 sub sid h; cases h
  | cons b rest ih =>
    intro m0 sub sid hmem hid hne
    rw [List.foldl_cons]
    rcases List.mem_cons.mp hmem with rfl | hrest
    · apply subitemsFold_keys_mono
      rw [subStep_some val m0 sub sid hid hne]
      exact (mem_keys_alistInsert m0 sid _ sid).mpr (Or.inr rfl)
    · exact ih (subStep val m0 b) sub sid hrest hid hne

theorem subitemsFold_keys_iff (val : NormSub → String → String)
    (subs : List NormSub) (sid : String) :
    sid ∈ alistKeys (subitemsFold val subs)
      ↔ ∃ sub ∈ subs, sub.id = some sid ∧ sid ≠ "" := by
  constructor
  · intro h
    obtain ⟨p, hp, hkey⟩ := List.mem_map.mp h
    obtain ⟨sub, hsub, hid, hne, _⟩ := subitemsFold_entry_shape val subs p hp
    exact ⟨sub, hsub, hkey ▸ hid, hkey ▸ hne⟩
  · rintro ⟨sub, hsub, hid, hne⟩
    exact subitemsFold_adds val subs [] sub sid hsub hid hne

/-- Claim C7: for every expected id the model omits, the normalizer fills
defaults — booleans get `false`, categoricals the normalized empty value,
conditionals `{exists: false, condition: default, subitems: one defaulted
entry per declared subitem}`; a defaulted conditional's subitem keys are
exactly the item's declared (truthy) subitem ids; and for the scenario item
`y` with subitem `s1` and the empty response the output is
`{y: {exists: false, condition: "N/A", subitems: {s1: "N/A"}}}`. -/
theorem C7_omitted_defaults :
    (∀ (pkvs : List (String × JVal)) (items : List RawItem) (i : String)
        (item : NormItem),
      (i, item) ∈ buildExpectedMap items →
      sectionOmits pkvs "booleans" i = true →
      sectionOmits pkvs "categoricals" i = true →
      sectionOmits pkvs "conditionals" i = true →
      (item.type = some "boolean" →
        alistGet? (parseChecklistResponse (JVal.obj pkvs) items).booleans i
          = some false)
      ∧ (item.type = some "categorical" →
        alistGet? (parseChecklistResponse (JVal.obj pkvs) items).categoricals i
          = some (defaultedCategorical none item))
      ∧ (item.type = some "conditional" →
        alistGet? (parseChecklistResponse (JVal.obj pkvs) items).conditionals i
          = some (defaultedConditional none item)))
    ∧ (∀ (item : NormItem) (sid : String),
        sid ∈ alistKeys ((defaultedConditional none item).subitems.getD [])
          ↔ ∃ sub ∈ item.subitems, sub.id = some sid ∧ sid ≠ "")
    ∧ parseChecklistResponse (JVal.obj []) [conditionalScenarioItem]
        = { booleans := [], categoricals := [],
            conditionals := [("y",
              { exists_ := false, condition := some "N/A",
                subitems := some [("s1", "N/A")] })] } := by
  refine ⟨?_, ?_, by decide⟩
  · intro pkvs items i item hmem hb hc hd
    obtain ⟨r', hr'eq, hlook⟩ := defaults_fold_localize (buildExpectedMap items)
      (reportedPhase (JVal.obj pkvs) (buildExpectedMap items)) i item
      (em_keys_nodup items) hmem
    have homit := reportedPhase_omitted pkvs (buildExpectedMap items) i hb hc hd
    have hrb : alistGet? r'.booleans i = none := hr'eq.1.trans homit.1
    have hrc : alistGet? r'.categoricals i = none := hr'eq.2.1.trans homit.2.1
    have hrd : alistGet? r'.conditionals i = none := hr'eq.2.2.trans homit.2.2
    refine ⟨?_, ?_, ?_⟩
    · intro ht
      have hself : alistGet? (applyDefaultsStep r' (i, item)).booleans i
          = some ((alistGet? r'.booleans i).getD false) :=
        (applyDefaultsStep_self_bool r' (i, item) ht).1
      rw [parse_eq_fold, hlook.1, hself, hrb]
      rfl
    · intro ht
      have hself : alistGet? (applyDefaultsStep r' (i, item)).categoricals i
          = some (defaultedCategorical (alistGet? r'.categoricals i) item) :=
        (applyDefaultsStep_self_cat r' (i, item) ht).1
      rw [parse_eq_fold, hlook.2.1, hself, hrc]
    · intro ht
      have hself : alistGet? (applyDefaultsStep r' (i, item)).conditionals i
          = some (defaultedConditional (alistGet? r'.conditionals i) item) :=
        (applyDefaultsStep_self_cond r' (i, item) ht).1
      rw [parse_eq_fold, hlook.2.2, hself, hrd]
  · intro item sid
    have hsubs : (defaultedConditional none item).subitems.getD []
        = normalizeSubitemsDefault item.subitems (condAllowedOf item) [] := by
      show (if (normalizeSubitemsDefault item.subitems (condAllowedOf item) []).isEmpty
        then none
        else some (normalizeSubitemsDefault item.subitems (condAllowedOf item) [])).getD []
        = normalizeSubitemsDefault item.subitems (condAllowedOf item) []
      by_cases he : (normalizeSubitemsDefault item.subitems (condAllowedOf item) []).isEmpty
      · rw [if_pos he, Option.getD_none, List.isEmpty_iff.mp he]
      · rw [if_neg he, Option.getD_some]
    rw [hsubs]
    exact subitemsFold_keys_iff _ item.subitems sid

/-- Witness for C7: the scenario item against the empty response — the
stored conditional is the defaulted one. -/
theorem C7_omitted_defaults_witness :
    alistGet? (parseChecklistResponse (JVal.obj [])
        [conditionalScenarioItem]).conditionals "y"
      = some (defaultedConditional none (normalizeRawItem conditionalScenarioItem)) :=
  ((C7_omitted_defaults.1 [] [conditionalScenarioItem] "y"
      (normalizeRawItem conditionalScenarioItem)
      (by decide) (by decide) (by decide) (by decide)).2.2 (by decide))

/-! ## Value-range lemmas -/

theorem normalizeOptionValue_mem (v : JVal) (a : String) (rest : List String) :
    normalizeOptionValue v (some (a :: rest)) ∈ a :: rest := by
  cases hc : cleanValue v with
  | some c =>
    cases hl : lookupLastLower (a :: rest) (pyLower c) with
    | some canon =>
      have he : normalizeOptionValue v (some (a :: rest)) = canon := by
        simp only [normalizeOptionValue, hc, hl]
      rw [he]
      rw [lookupLastLower] at hl
      exact List.mem_of_mem_filter (List.mem_of_mem_getLast? hl)
    | none =>
      cases hna : findNA (a :: rest) with
      | some na =>
        have he : normalizeOptionValue v (some (a :: rest)) = na := by
          simp only [normalizeOptionValue, hc, hl, hna, Option.getD_some]
        rw [he]
        rw [findNA] at hna
        exact List.mem_of_find?_eq_some hna
      | none =>
        have he : normalizeOptionValue v (some (a :: rest)) = a := by
          simp only [normalizeOptionValue, hc, hl, hna, Option.getD_none]
        rw [he]
        exact List.mem_cons_self a rest
  | none =>
    cases hna : findNA (a :: rest) with
    | some na =>
      have he : normalizeOptionValue v (some (a :: rest)) = na := by
        simp only [normalizeOptionValue, hc, hna, Option.getD_some]
      rw [he]
      rw [findNA] at hna
      exact List.mem_of_find?_eq_some hna
    | none =>
      have he : normalizeOptionValue v (some (a :: rest)) = a := by
        simp only [normalizeOptionValue, hc, hna, Option.getD_none]
      rw [he]
      exact List.mem_cons_self a rest

theorem normalizeOptionValue_mem_of_ne_nil (v : JVal) (l : List String) (h : l ≠ []) :
    normalizeOptionValue v (some l) ∈ l := by
  cases l with
  | nil => exact absurd rfl h
  | cons a rest => exact normalizeOptionValue_mem v a rest

theorem pyOr_ne_nil (a : Option (List String)) (b : List String) (hb : b ≠ []) :
    pyOr a b ≠ [] := by
  cases a with
  | none => simpa [pyOr] using hb
  | some l =>
    by_cases hl : l.isEmpty
    · simpa [pyOr, hl] using hb
    · simp only [pyOr, if_neg hl]
      intro hc
      rw [hc] at hl
      exact hl rfl

theorem condAllowedOf_ne_nil (item : NormItem) : condAllowedOf item ≠ [] := by
  rw [condAllowedOf]
  exact pyOr_ne_nil _ _ (pyOr_ne_nil _ _ (by decide))

theorem ite_isEmpty_some {l x : List String}
    (h : (if x.isEmpty then none else some x) = some l) : l ≠ [] := by
  by_cases hx : x.isEmpty
  · rw [if_pos hx] at h
    cases h
  · rw [if_neg hx] at h
    intro hc
    rw [Option.some_injective _ h, hc] at hx
    exact hx rfl

theorem normalizeAllowedOptions_ne_nil (o : Option (List JVal)) (l : List String)
    (h : normalizeAllowedOptions o = some l) : l ≠ [] := by
  cases o with
  | none => simp [normalizeAllowedOptions] at h
  | some opts =>
    by_cases he : opts.isEmpty
    · exfalso
      simp [normalizeAllowedOptions, he] at h
    · revert h
      simp only [normalizeAllowedOptions, if_neg he]
      exact fun h => ite_isEmpty_some h

theorem em_options_ne_nil (items : List RawItem) (i : String) (item : NormItem)
    (h : alistGet? (buildExpectedMap items) i = some item) :
    (∀ l, item.options = some l → l ≠ [])
    ∧ (∀ sub ∈ item.subitems, ∀ l, sub.options = some l → l ≠ []) := by
  obtain ⟨raw, _, _, _, hshape⟩ :=
    em_entry_shape items i item (mem_of_alistGet? _ i item h)
  constructor
  · intro l hl
    rw [hshape] at hl
    exact normalizeAllowedOptions_ne_nil raw.options l hl
  · intro sub hsub l hl
    rw [hshape] at hsub
    obtain ⟨rsub, _, hrs⟩ := List.mem_map.mp hsub
    rw [← hrs] at hl
    exact normalizeAllowedOptions_ne_nil rsub.options l hl

theorem alistInsert_forall {α : Type} (Q : String × α → Prop)
    (m : List (String × α)) (k : String) (v : α)
    (hm : ∀ p ∈ m, Q p) (hv : Q (k, v)) : ∀ p ∈ alistInsert m k v, Q p := by
  intro p hp
  rcases mem_alistInsert m k v p hp with h | rfl
  · exact hm p h
  · exact hv

theorem pyOrNone_some {l sm : List (String × String)} (h : pyOrNone l = some sm) :
    sm = l := by
  rw [pyOrNone] at h
  by_cases hx : l.isEmpty
  · rw [if_pos hx] at h
    cases h
  · rw [if_neg hx] at h
    exact (Option.some_injective _ h).symm

theorem reportedConditional_shape (item : NormItem) (vkvs : List (String × JVal)) :
    (∃ c, (reportedConditional item vkvs).condition = some c
      ∧ c ∈ condAllowedOf item)
    ∧ (∀ sm, (reportedConditional item vkvs).subitems = some sm → ∀ sv ∈ sm,
        ∃ sub ∈ item.subitems, sub.id = some sv.1
          ∧ sv.2 ∈ pyOr sub.options (condAllowedOf item)) := by
  constructor
  · exact ⟨_, rfl,
      normalizeOptionValue_mem_of_ne_nil _ _ (condAllowedOf_ne_nil item)⟩
  · intro sm hsm sv hsv
    have h0 : pyOrNone (normalizeSubitemsReported item.subitems (condAllowedOf item)
        (reportedSubMap vkvs)) = some sm := hsm
    rw [pyOrNone_some h0] at hsv
    obtain ⟨sub, hsub, hid, _, hval⟩ :=
      subitemsFold_entry_shape _ item.subitems sv hsv
    refine ⟨sub, hsub, hid, ?_⟩
    rw [hval]
    exact normalizeOptionValue_mem_of_ne_nil _ _
      (pyOr_ne_nil sub.options _ (condAllowedOf_ne_nil item))

theorem defaultedConditional_shape (existing : Option ConditionalAnswer)
    (item : NormItem) :
    (∃ c, (defaultedConditional existing item).condition = some c
      ∧ c ∈ condAllowedOf item)
    ∧ (∀ sm, (defaultedConditional existing item).subitems = some sm → ∀ sv ∈ sm,
        ∃ sub ∈ item.subitems, sub.id = some sv.1
          ∧ sv.2 ∈ pyOr sub.options (condAllowedOf item)) := by
  constructor
  · exact ⟨_, rfl,
      normalizeOptionValue_mem_of_ne_nil _ _ (condAllowedOf_ne_nil item)⟩
  · intro sm hsm sv hsv
    have h0 : pyOrNone (normalizeSubitemsDefault item.subitems (condAllowedOf item)
        (existingSubitemsOf existing)) = some sm := hsm
    rw [pyOrNone_some h0] at hsv
    obtain ⟨sub, hsub, hid, _, hval⟩ :=
      subitemsFold_entry_shape _ item.subitems sv hsv
    refine ⟨sub, hsub, hid, ?_⟩
    rw [hval]
    exact normalizeOptionValue_mem_of_ne_nil _ _
      (pyOr_ne_nil sub.options _ (condAllowedOf_ne_nil item))

theorem pcatStep_shape (em : List (String × NormItem)) (m : List (String × String))
    (kv : String × JVal) :
    pcatStep em m kv = m
    ∨ ∃ item, alistGet? em kv.1 = some item
        ∧ pcatStep em m kv
            = alistInsert m kv.1 (normalizeOptionValue kv.2 item.options) := by
  cases h : alistGet? em kv.1 with
  | none => exact Or.inl (by simp [pcatStep, h])
  | some item => exact Or.inr ⟨item, rfl, by simp [pcatStep, h]⟩

theorem pcondStep_shape (em : List (String × NormItem))
    (m : List (String × ConditionalAnswer)) (kv : String × JVal) :
    pcondStep em m kv = m
    ∨ ∃ item vkvs, alistGet? em kv.1 = some item
        ∧ pcondStep em m kv = alistInsert m kv.1 (reportedConditional item vkvs) := by
  cases h : alistGet? em kv.1 with
  | none => exact Or.inl (by cases kv.2 <;> simp [pcondStep, h])
  | some item =>
    cases hv : kv.2 with
    | obj vkvs => exact Or.inr ⟨item, vkvs, rfl, by simp [pcondStep, h, hv]⟩
    | null => exact Or.inl (by simp [pcondStep, h, hv])
    | b bv => exact Or.inl (by simp [pcondStep, h, hv])
    | num n => exact Or.inl (by simp [pcondStep, h, hv])
    | s sv => exact Or.inl (by simp [pcondStep, h, hv])
    | arr l => exact Or.inl (by simp [pcondStep, h, hv])

theorem applyDefaultsStep_cat_cond (r : ChecklistEvaluationOutput)
    (e : String × NormItem) :
    ((applyDefaultsStep r e).categoricals = r.categoricals
      ∨ (applyDefaultsStep r e).categoricals
          = alistInsert r.categoricals e.1
              (defaultedCategorical (alistGet? r.categoricals e.1) e.2))
    ∧ ((applyDefaultsStep r e).conditionals = r.conditionals
      ∨ (applyDefaultsStep r e).conditionals
          = alistInsert r.conditionals e.1
              (defaultedConditional (alistGet? r.conditionals e.1) e.2)) := by
  rw [applyDefaultsStep]
  by_cases hb : e.2.type = some "boolean"
  · rw [if_pos hb]
    by_cases hex : (alistGet? r.booleans e.1).isSome = true
    · rw [if_pos hex]
      exact ⟨Or.inl rfl, Or.inl rfl⟩
    · rw [if_neg hex]
      exact ⟨Or.inl rfl, Or.inl rfl⟩
  · rw [if_neg hb]
    by_cases hc : e.2.type = some "categorical"
    · rw [if_pos hc]
      exact ⟨Or.inr rfl, Or.inl rfl⟩
    · rw [if_neg hc]
      by_cases hd : e.2.type = some "conditional"
      · rw [if_pos hd]
        exact ⟨Or.inl rfl, Or.inr rfl⟩
      · rw [if_neg hd]
        exact ⟨Or.inl rfl, Or.inl rfl⟩

theorem defaultedCategorical_mem (existing : Option String) (item : NormItem)
    (l : List String) (hl : item.options = some l) (hne : l ≠ []) :
    defaultedCategorical existing item ∈ l := by
  have he : defaultedCategorical existing item
      = normalizeOptionValue
          (match existing with
            | some sv => JVal.s sv
            | none => JVal.null) item.options := rfl
  rw [he, hl]
  exact normalizeOptionValue_mem_of_ne_nil _ _ hne

/-- Claim C10: in every result of the response normalizer, each categorical
value of an id whose expected item carries a (normalized, non-empty)
options list lies in that list, every conditional's condition is non-null
and lies in the item's condition-options list (falling back to its options,
else the default Quality set), and every subitem value lies in that
subitem's allowed list. -/
theorem C10_values_within_options :
    ∀ (parsed : JVal) (items : List RawItem),
      (∀ kv ∈ (parseChecklistResponse parsed items).categoricals,
        ∀ item, alistGet? (buildExpectedMap items) kv.1 = some item →
        ∀ l, item.options = some l → kv.2 ∈ l)
      ∧ (∀ kv ∈ (parseChecklistResponse parsed items).conditionals,
        ∀ item, alistGet? (buildExpectedMap items) kv.1 = some item →
        (∃ c, kv.2.condition = some c ∧ c ∈ condAllowedOf item)
        ∧ (∀ sm, kv.2.subitems = some sm → ∀ sv ∈ sm,
            ∃ sub ∈ item.subitems, sub.id = some sv.1
              ∧ sv.2 ∈ pyOr sub.options (condAllowedOf item))) := by
  intro parsed items
  have hQcat : ∀ (m : List (String × String)) (kv : String × JVal),
      (∀ p ∈ m, ∀ item, alistGet? (buildExpectedMap items) p.1 = some item →
        ∀ l, item.options = some l → p.2 ∈ l) →
      ∀ p ∈ pcatStep (buildExpectedMap items) m kv,
        ∀ item, alistGet? (buildExpectedMap items) p.1 = some item →
        ∀ l, item.options = some l → p.2 ∈ l := by
    intro m kv hm
    rcases pcatStep_shape (buildExpectedMap items) m kv with he | ⟨item0, h0, he⟩
    · rw [he]; exact hm
    · rw [he]
      refine alistInsert_forall _ m kv.1 _ hm ?_
      intro item' h' l hl
      have hitem : item' = item0 := Option.some_injective _ ((h0.symm.trans h').symm)
      have hl' : item0.options = some l := hitem ▸ hl
      rw [hl']
      exact normalizeOptionValue_mem_of_ne_nil kv.2 l
        ((em_options_ne_nil items kv.1 item0 h0).1 l hl')
  have hQcond : ∀ (m : List (String × ConditionalAnswer)) (kv : String × JVal),
      (∀ p ∈ m, ∀ item, alistGet? (buildExpectedMap items) p.1 = some item →
        (∃ c, p.2.condition = some c ∧ c ∈ condAllowedOf item)
        ∧ (∀ sm, p.2.subitems = some sm → ∀ sv ∈ sm,
            ∃ sub ∈ item.subitems, sub.id = some sv.1
              ∧ sv.2 ∈ pyOr sub.options (condAllowedOf item))) →
      ∀ p ∈ pcondStep (buildExpectedMap items) m kv,
        ∀ item, alistGet? (buildExpectedMap items) p.1 = some item →
        (∃ c, p.2.condition = some c ∧ c ∈ condAllowedOf item)
        ∧ (∀ sm, p.2.subitems = some sm → ∀ sv ∈ sm,
            ∃ sub ∈ item.subitems, sub.id = some sv.1
              ∧ sv.2 ∈ pyOr sub.options (condAllowedOf item)) := by
    intro m kv hm
    rcases pcondStep_shape (buildExpectedMap items) m kv with he | ⟨item0, vkvs, h0, he⟩
    · rw [he]; exact hm
    · rw [he]
      refine alistInsert_forall _ m kv.1 _ hm ?_
      intro item' h'
      have hitem : item' = item0 := Option.some_injective _ ((h0.symm.trans h').symm)
      rw [hitem]
      exact reportedConditional_shape item0 vkvs
  have hreported :
      (∀ p ∈ (reportedPhase parsed (buildExpectedMap items)).categoricals,
        ∀ item, alistGet? (buildExpectedMap items) p.1 = some item →
        ∀ l, item.options = some l → p.2 ∈ l)
      ∧ (∀ p ∈ (reportedPhase parsed (buildExpectedMap items)).conditionals,
        ∀ item, alistGet? (buildExpectedMap items) p.1 = some item →
        (∃ c, p.2.condition = some c ∧ c ∈ condAllowedOf item)
        ∧ (∀ sm, p.2.subitems = some sm → ∀ sv ∈ sm,
            ∃ sub ∈ item.subitems, sub.id = some sv.1
              ∧ sv.2 ∈ pyOr sub.options (condAllowedOf item))) := by
    cases parsed with
    | obj pkvs =>
      constructor
      · show ∀ p ∈ (match getDictDefault pkvs "categoricals" with
          | some kvs => processCategoricals (buildExpectedMap items) kvs
          | none => []), _
        cases getDictDefault pkvs "categoricals" with
        | none => intro p hp; cases hp
        | some kvs =>
          refine foldl_preserves (pcatStep (buildExpectedMap items))
            (fun m => ∀ p ∈ m, ∀ item,
              alistGet? (buildExpectedMap items) p.1 = some item →
              ∀ l, item.options = some l → p.2 ∈ l) kvs []
            (by intro p hp; cases hp) ?_
          intro kv _ m hm
          exact hQcat m kv hm
      · show ∀ p ∈ (match getDictDefault pkvs "conditionals" with
          | some kvs => processConditionals (buildExpectedMap items) kvs
          | none => []), _
        cases getDictDefault pkvs "conditionals" with
        | none => intro p hp; cases hp
        | some kvs =>
          refine foldl_preserves (pcondStep (buildExpectedMap items))
            (fun m => ∀ p ∈ m, ∀ item,
              alistGet? (buildExpectedMap items) p.1 = some item →
              (∃ c, p.2.condition = some c ∧ c ∈ condAllowedOf item)
              ∧ (∀ sm, p.2.subitems = some sm → ∀ sv ∈ sm,
                  ∃ sub ∈ item.subitems, sub.id = some sv.1
                    ∧ sv.2 ∈ pyOr sub.options (condAllowedOf item))) kvs []
            (by intro p hp; cases hp) ?_
          intro kv _ m hm
          exact hQcond m kv hm
    | null => exact ⟨fun p hp => absurd hp (by simp [reportedPhase]),
        fun p hp => absurd hp (by simp [reportedPhase])⟩
    | b bv => exact ⟨fun p hp => absurd hp (by simp [reportedPhase]),
        fun p hp => absurd hp (by simp [reportedPhase])⟩
    | num n => exact ⟨fun p hp => absurd hp (by simp [reportedPhase]),
        fun p hp => absurd hp (by simp [reportedPhase])⟩
    | s sv => exact ⟨fun p hp => absurd hp (by simp [reportedPhase]),
        fun p hp => absurd hp (by simp [reportedPhase])⟩
    | arr l => exact ⟨fun p hp => absurd hp (by simp [reportedPhase]),
        fun p hp => absurd hp (by simp [reportedPhase])⟩
  rw [parse_eq_fold]
  refine foldl_preserves applyDefaultsStep
    (fun r => (∀ p ∈ r.categoricals, ∀ item,
        alistGet? (buildExpectedMap items) p.1 = some item →
        ∀ l, item.options = some l → p.2 ∈ l)
      ∧ (∀ p ∈ r.conditionals, ∀ item,
        alistGet? (buildExpectedMap items) p.1 = some item →
        (∃ c, p.2.condition = some c ∧ c ∈ condAllowedOf item)
        ∧ (∀ sm, p.2.subitems = some sm → ∀ sv ∈ sm,
            ∃ sub ∈ item.subitems, sub.id = some sv.1
              ∧ sv.2 ∈ pyOr sub.options (condAllowedOf item))))
    (buildExpectedMap items) (reportedPhase parsed (buildExpectedMap items))
    hreported ?_
  intro e he r hr
  have hekey : alistGet? (buildExpectedMap items) e.1 = some e.2 := by
    have : (e.1, e.2) ∈ buildExpectedMap items := he
    exact alistGet?_of_mem_nodup _ e.1 e.2 (em_keys_nodup items) this
  obtain ⟨hcat, hcond⟩ := applyDefaultsStep_cat_cond r e
  constructor
  · rcases hcat with hsame | hins
    · rw [hsame]; exact hr.1
    · rw [hins]
      refine alistInsert_forall _ r.categoricals e.1 _ hr.1 ?_
      intro item' h' l hl
      have hitem : item' = e.2 := Option.some_injective _ ((hekey.symm.trans h').symm)
      have hl' : e.2.options = some l := hitem ▸ hl
      exact defaultedCategorical_mem _ e.2 l hl'
        ((em_options_ne_nil items e.1 e.2 hekey).1 l hl')
  · rcases hcond with hsame | hins
    · rw [hsame]; exact hr.2
    · rw [hins]
      refine alistInsert_forall _ r.conditionals e.1 _ hr.2 ?_
      intro item' h'
      have hitem : item' = e.2 := Option.some_injective _ ((hekey.symm.trans h').symm)
      rw [hitem]
      exact defaultedConditional_shape _ e.2

/-- Witness for C10: the reported value `"gOoD"` for the categorical `x`
is stored as `"Good"`, an element of the item's normalized options. -/
theorem C10_values_within_options_witness :
    ("x", "Good") ∈ (parseChecklistResponse catScenarioParsed
        [catScenarioItem]).categoricals
    ∧ "Good" ∈ ["Poor", "Average", "Good", "Excellent", "N/A"] :=
  ⟨by decide,
   (C10_values_within_options catScenarioParsed [catScenarioItem]).1
     ("x", "Good") (by decide) (normalizeRawItem catScenarioItem) (by decide)
     ["Poor", "Average", "Good", "Excellent", "N/A"] (by decide)⟩

/-! ## Rate-limiter bucket lemmas -/

theorem refill_last (capT capR : ℚ) (s : GovState) (t : ℚ) (h : s.lastRefill ≤ t) :
    (refillBuckets capT capR s t).lastRefill = t := by
  rw [refillBuckets]
  by_cases he : t - s.lastRefill ≤ 0
  · rw [if_pos he]; linarith
  · rw [if_neg he]

theorem refill_tpm_le_cap (capT capR : ℚ) (s : GovState) (t : ℚ)
    (h : s.tpmTokens ≤ capT) :
    (refillBuckets capT capR s t).tpmTokens ≤ capT := by
  rw [refillBuckets]
  by_cases he : t - s.lastRefill ≤ 0
  · rw [if_pos he]; exact h
  · rw [if_neg he]; exact min_le_left _ _

theorem refill_rpm_le_cap (capT capR : ℚ) (s : GovState) (t : ℚ)
    (h : s.rpmTokens ≤ capR) :
    (refillBuckets capT capR s t).rpmTokens ≤ capR := by
  rw [refillBuckets]
  by_cases he : t - s.lastRefill ≤ 0
  · rw [if_pos he]; exact h
  · rw [if_neg he]; exact min_le_left _ _

theorem refill_tpm_le_linear (capT capR : ℚ) (s : GovState) (t : ℚ)
    (h : s.lastRefill ≤ t) :
    (refillBuckets capT capR s t).tpmTokens
      ≤ s.tpmTokens + (t - s.lastRefill) / 60 * capT := by
  rw [refillBuckets]
  by_cases he : t - s.lastRefill ≤ 0
  · rw [if_pos he]
    have h0 : t - s.lastRefill = 0 := le_antisymm he (by linarith)
    rw [h0]
    simp
  · rw [if_neg he]
    exact min_le_right _ _

theorem refill_rpm_le_linear (capT capR : ℚ) (s : GovState) (t : ℚ)
    (h : s.lastRefill ≤ t) :
    (refillBuckets capT capR s t).rpmTokens
      ≤ s.rpmTokens + (t - s.lastRefill) / 60 * capR := by
  rw [refillBuckets]
  by_cases he : t - s.lastRefill ≤ 0
  · rw [if_pos he]
    have h0 : t - s.lastRefill = 0 := le_antisymm he (by linarith)
    rw [h0]
    simp
  · rw [if_neg he]
    exact min_le_right _ _

theorem acquireStep_last (capT capR : ℚ) (s : GovState) (t est : ℚ)
    (h : s.lastRefill ≤ t) :
    (acquireStep capT capR s t est).lastRefill = t :=
  refill_last capT capR s t h

theorem acquireStep_tpm (capT capR : ℚ) (s : GovState) (t est : ℚ) :
    (acquireStep capT capR s t est).tpmTokens
      = (refillBuckets capT capR s t).tpmTokens - est := rfl

theorem acquireStep_rpm (capT capR : ℚ) (s : GovState) (t est : ℚ) :
    (acquireStep capT capR s t est).rpmTokens
      = (refillBuckets capT capR s t).rpmTokens - 1 := rfl

theorem stateOk_step (capT capR : ℚ) (s : GovState) (t est : ℚ)
    (hs : StateOk capT capR s) (hest : 0 ≤ est)
    (hok : acquireOk capT capR s t est) :
    StateOk capT capR (acquireStep capT capR s t est) := by
  obtain ⟨_, h2, _, h4⟩ := hs
  obtain ⟨ho1, ho2⟩ := hok
  refine ⟨?_, ?_, ?_, ?_⟩
  · rw [acquireStep_tpm]; linarith
  · rw [acquireStep_tpm]
    have := refill_tpm_le_cap capT capR s t h2
    linarith
  · rw [acquireStep_rpm]; linarith
  · rw [acquireStep_rpm]
    have := refill_rpm_le_cap capT capR s t h4
    linarith

theorem validFrom_times (capT capR : ℚ) :
    ∀ (l : List (ℚ × ℚ)) (s : GovState), validFrom capT capR s l →
      ∀ e ∈ l, s.lastRefill ≤ e.1 := by
  intro l
  induction l with
  | nil => intro s _ e he; cases he
  | cons e0 rest ih =>
    intro s hv e he
    obtain ⟨hl, _, _, hrest⟩ := hv
    rcases List.mem_cons.mp he with rfl | hmem
    · exact hl
    · have := ih _ hrest e hmem
      rw [acquireStep_last capT capR s e0.1 e0.2 hl] at this
      linarith

/-! ## Window lemmas -/

theorem windowEvents_cons_in (e : ℚ × ℚ) (l : List (ℚ × ℚ)) (w : ℚ)
    (h1 : w ≤ e.1) (h2 : e.1 ≤ w + 60) :
    windowEvents (e :: l) w = e :: windowEvents l w := by
  rw [windowEvents, windowEvents, List.filter_cons_of_pos]
  simp [h1, h2]

theorem windowEvents_cons_out (e : ℚ × ℚ) (l : List (ℚ × ℚ)) (w : ℚ)
    (h : ¬ w ≤ e.1 ∨ ¬ e.1 ≤ w + 60) :
    windowEvents (e :: l) w = windowEvents l w := by
  rw [windowEvents, windowEvents, List.filter_cons_of_neg]
  rcases h with h | h <;> simp [h]

theorem windowEvents_nil_of_far (l : List (ℚ × ℚ)) (w : ℚ)
    (h : ∀ e ∈ l, w + 60 < e.1) :
    windowEvents l w = [] := by
  rw [windowEvents, List.filter_eq_nil_iff]
  intro e he
  have := h e he
  simp
  intro
  linarith

theorem windowTokens_cons_in (e : ℚ × ℚ) (l : List (ℚ × ℚ)) (w : ℚ)
    (h1 : w ≤ e.1) (h2 : e.1 ≤ w + 60) :
    windowTokens (e :: l) w = e.2 + windowTokens l w := by
  rw [windowTokens, windowTokens, windowEvents_cons_in e l w h1 h2]
  simp

theorem windowTokens_cons_out (e : ℚ × ℚ) (l : List (ℚ × ℚ)) (w : ℚ)
    (h : ¬ w ≤ e.1 ∨ ¬ e.1 ≤ w + 60) :
    windowTokens (e :: l) w = windowTokens l w := by
  rw [windowTokens, windowTokens, windowEvents_cons_out e l w h]

theorem windowCount_cons_in (e : ℚ × ℚ) (l : List (ℚ × ℚ)) (w : ℚ)
    (h1 : w ≤ e.1) (h2 : e.1 ≤ w + 60) :
    windowCount (e :: l) w = 1 + windowCount l w := by
  rw [windowCount, windowCount, windowEvents_cons_in e l w h1 h2]
  simp
  ring

theorem windowCount_cons_out (e : ℚ × ℚ) (l : List (ℚ × ℚ)) (w : ℚ)
    (h : ¬ w ≤ e.1 ∨ ¬ e.1 ≤ w + 60) :
    windowCount (e :: l) w = windowCount l w := by
  rw [windowCount, windowCount, windowEvents_cons_out e l w h]

theorem windowCount_nonneg (l : List (ℚ × ℚ)) (w : ℚ) : 0 ≤ windowCount l w := by
  rw [windowCount]
  positivity

/-- Budget lemma: over a valid run from `s`, the in-window demand prior to
the window's end is covered by the current bucket content plus the refill
available between `s.lastRefill` and the window's end `w + 60`. -/
theorem window_budget (capT capR : ℚ) (hT : 0 ≤ capT) (hR : 0 ≤ capR) :
    ∀ (l : List (ℚ × ℚ)) (s : GovState) (w : ℚ),
      validFrom capT capR s l → StateOk capT capR s → s.lastRefill ≤ w + 60 →
      windowTokens l w ≤ s.tpmTokens + (w + 60 - s.lastRefill) / 60 * capT
      ∧ windowCount l w ≤ s.rpmTokens + (w + 60 - s.lastRefill) / 60 * capR := by
  intro l
  induction l with
  | nil =>
    intro s w _ hs hle
    obtain ⟨h1, _, h3, _⟩ := hs
    have hslackT : 0 ≤ (w + 60 - s.lastRefill) / 60 * capT := by
      have : (0 : ℚ) ≤ (w + 60 - s.lastRefill) / 60 :=
        div_nonneg (by linarith) (by norm_num)
      exact mul_nonneg this hT
    have hslackR : 0 ≤ (w + 60 - s.lastRefill) / 60 * capR := by
      have : (0 : ℚ) ≤ (w + 60 - s.lastRefill) / 60 :=
        div_nonneg (by linarith) (by norm_num)
      exact mul_nonneg this hR
    constructor
    · rw [windowTokens, windowEvents]
      simp
      linarith
    · rw [windowCount, windowEvents]
      simp
      linarith
  | cons e0 rest ih =>
    intro s w hv hs hle
    obtain ⟨hl, hest, hok, hrest⟩ := hv
    set s' := acquireStep capT capR s e0.1 e0.2 with hs'def
    have hs'ok : StateOk capT capR s' := stateOk_step capT capR s e0.1 e0.2 hs hest hok
    have hs'last : s'.lastRefill = e0.1 := acquireStep_last capT capR s e0.1 e0.2 hl
    by_cases hwin : e0.1 ≤ w + 60
    · -- the head event is not past the window's end
      have hihT := (ih s' w hrest hs'ok (by rw [hs'last]; exact hwin)).1
      have hihR := (ih s' w hrest hs'ok (by rw [hs'last]; exact hwin)).2
      rw [hs'last] at hihT hihR
      have hstepT : s'.tpmTokens = (refillBuckets capT capR s e0.1).tpmTokens - e0.2 :=
        acquireStep_tpm capT capR s e0.1 e0.2
      have hstepR : s'.rpmTokens = (refillBuckets capT capR s e0.1).rpmTokens - 1 :=
        acquireStep_rpm capT capR s e0.1 e0.2
      have hlinT := refill_tpm_le_linear capT capR s e0.1 hl
      have hlinR := refill_rpm_le_linear capT capR s e0.1 hl
      have hsplitT : (e0.1 - s.lastRefill) / 60 * capT + (w + 60 - e0.1) / 60 * capT
          = (w + 60 - s.lastRefill) / 60 * capT := by ring
      have hsplitR : (e0.1 - s.lastRefill) / 60 * capR + (w + 60 - e0.1) / 60 * capR
          = (w + 60 - s.lastRefill) / 60 * capR := by ring
      by_cases hwlo : w ≤ e0.1
      · rw [windowTokens_cons_in e0 rest w hwlo hwin,
            windowCount_cons_in e0 rest w hwlo hwin]
        constructor
        · linarith
        · linarith
      · rw [windowTokens_cons_out e0 rest w (Or.inl hwlo),
            windowCount_cons_out e0 rest w (Or.inl hwlo)]
        constructor
        · linarith
        · linarith
    · -- the head event is past the window's end, hence so is the whole tail
      have hfar : ∀ e ∈ e0 :: rest, w + 60 < e.1 := by
        intro e he
        rcases List.mem_cons.mp he with rfl | hmem
        · linarith
        · have := validFrom_times capT capR rest s' hrest e hmem
          rw [hs'last] at this
          linarith
      have hnil : windowEvents (e0 :: rest) w = [] :=
        windowEvents_nil_of_far (e0 :: rest) w hfar
      obtain ⟨h1, _, h3, _⟩ := hs
      have hslackT : 0 ≤ (w + 60 - s.lastRefill) / 60 * capT := by
        have : (0 : ℚ) ≤ (w + 60 - s.lastRefill) / 60 :=
          div_nonneg (by linarith) (by norm_num)
        exact mul_nonneg this hT
      have hslackR : 0 ≤ (w + 60 - s.lastRefill) / 60 * capR := by
        have : (0 : ℚ) ≤ (w + 60 - s.lastRefill) / 60 :=
          div_nonneg (by linarith) (by norm_num)
        exact mul_nonneg this hR
      constructor
      · rw [windowTokens, hnil]
        simp
        linarith
      · rw [windowCount, hnil]
        simp
        linarith

/-- From any sane bucket state, a valid run deducts at most twice each
capacity inside any 60-second window: the stored capacity plus one full
window of refill. -/
theorem window_bound_from (capT capR : ℚ) (hT : 0 ≤ capT) (hR : 0 ≤ capR) :
    ∀ (l : List (ℚ × ℚ)) (s : GovState) (w : ℚ),
      validFrom capT capR s l → StateOk capT capR s →
      windowTokens l w ≤ 2 * capT ∧ windowCount l w ≤ 2 * capR := by
  intro l
  induction l with
  | nil =>
    intro s w _ _
    constructor
    · rw [windowTokens, windowEvents]
      simp
      linarith
    · rw [windowCount, windowEvents]
      simp
      linarith
  | cons e0 rest ih =>
    intro s w hv hs
    obtain ⟨hl, hest, hok, hrest⟩ := hv
    set s' := acquireStep capT capR s e0.1 e0.2 with hs'def
    have hs'ok : StateOk capT capR s' := stateOk_step capT capR s e0.1 e0.2 hs hest hok
    have hs'last : s'.lastRefill = e0.1 := acquireStep_last capT capR s e0.1 e0.2 hl
    by_cases hwlo : w ≤ e0.1
    · by_cases hwin : e0.1 ≤ w + 60
      · -- the head event lands inside the window: spend the budget lemma on the tail
        have hbud := window_budget capT capR hT hR rest s' w hrest hs'ok
          (by rw [hs'last]; exact hwin)
        rw [hs'last] at hbud
        have hstepT : s'.tpmTokens = (refillBuckets capT capR s e0.1).tpmTokens - e0.2 :=
          acquireStep_tpm capT capR s e0.1 e0.2
        have hstepR : s'.rpmTokens = (refillBuckets capT capR s e0.1).rpmTokens - 1 :=
          acquireStep_rpm capT capR s e0.1 e0.2
        have hcapT' := refill_tpm_le_cap capT capR s e0.1 hs.2.1
        have hcapR' := refill_rpm_le_cap capT capR s e0.1 hs.2.2.2
        have hfrac : (w + 60 - e0.1) / 60 ≤ 1 := by
          rw [div_le_one (by norm_num : (0 : ℚ) < 60)]
          linarith
        have hslackT : (w + 60 - e0.1) / 60 * capT ≤ capT := by
          have := mul_le_mul_of_nonneg_right hfrac hT
          rw [one_mul] at this
          exact this
        have hslackR : (w + 60 - e0.1) / 60 * capR ≤ capR := by
          have := mul_le_mul_of_nonneg_right hfrac hR
          rw [one_mul] at this
          exact this
        rw [windowTokens_cons_in e0 rest w hwlo hwin,
            windowCount_cons_in e0 rest w hwlo hwin]
        constructor
        · linarith [hbud.1]
        · linarith [hbud.2]
      · -- the head (and hence the whole tail) is past the window's end
        have hfar : ∀ e ∈ e0 :: rest, w + 60 < e.1 := by
          intro e he
          rcases List.mem_cons.mp he with rfl | hmem
          · linarith
          · have := validFrom_times capT capR rest s' hrest e hmem
            rw [hs'last] at this
            linarith
        have hnil : windowEvents (e0 :: rest) w = [] :=
          windowEvents_nil_of_far (e0 :: rest) w hfar
        constructor
        · rw [windowTokens, hnil]
          simp
          linarith
        · rw [windowCount, hnil]
          simp
          linarith
    · -- the head event precedes the window: drop it and recurse
      rw [windowTokens_cons_out e0 rest w (Or.inl hwlo),
          windowCount_cons_out e0 rest w (Or.inl hwlo)]
      exact ih s' w hrest hs'ok

/-- Claim C2 (corrected): over any 60-second wall-clock window, a valid run
of successful `acquire` calls from the initial (full-bucket) governor state
deducts at most `2 * tpm` estimated tokens and performs at most `2 * rpm`
acquisitions — the full bucket the window can start with plus one window's
worth of refill.  The claimed `tpm`/`rpm` bounds themselves are refuted by
the companion counterexample theorem. -/
theorem C2_window_bound (capT capR : ℚ) (hT : 0 ≤ capT) (hR : 0 ≤ capR)
    (t0 : ℚ) (l : List (ℚ × ℚ)) (w : ℚ)
    (hv : validFrom capT capR (initState capT capR t0) l) :
    windowTokens l w ≤ 2 * capT ∧ windowCount l w ≤ 2 * capR :=
  window_bound_from capT capR hT hR l (initState capT capR t0) w hv
    ⟨hT, le_refl _, hR, le_refl _⟩

/-- Claim C2's original per-window bound is false: with `tpm = 1000`,
`rpm = 60`, the run that acquires 900 tokens at `t = 0` (the bucket starts
full) and 900 more at `t = 59` (by then the refill has brought the bucket
back to capacity) is accepted by the governor, yet the window `[0, 60]`
sees 1800 > 1000 tokens deducted. -/
theorem C2_window_bound_counterexample :
    validFrom 1000 60 (initState 1000 60 0) [((0 : ℚ), (900 : ℚ)), (59, 900)]
    ∧ ¬ windowTokens [((0 : ℚ), (900 : ℚ)), (59, 900)] 0 ≤ 1000 := by
  constructor
  · norm_num [validFrom, acquireOk, acquireStep, refillBuckets, initState]
  · norm_num [windowTokens, windowEvents, List.filter]

/-- The corrected window bound instantiated on the counterexample trace:
1800 tokens and 2 acquisitions inside `[0, 60]` respect `2 * tpm = 2000`
and `2 * rpm = 120`. -/
theorem C2_window_bound_witness :
    windowTokens [((0 : ℚ), (900 : ℚ)), (59, 900)] 0 ≤ 2 * 1000
    ∧ windowCount [((0 : ℚ), (900 : ℚ)), (59, 900)] 0 ≤ 2 * 60 :=
  C2_window_bound 1000 60 (by norm_num) (by norm_num) 0
    [((0 : ℚ), (900 : ℚ)), (59, 900)] 0
    (by norm_num [validFrom, acquireOk, acquireStep, refillBuckets, initState])

/-- Claim C3 (code bug): when the waiting task is cancelled inside the
token-bucket wait loop, the escaping `asyncio.CancelledError` is not matched
by the `except Exception` clause guarding the loop, so the semaphore slot
obtained at the top of `acquire` stays held — cancellation leaks the slot,
while an ordinary `Exception` releases it as the claim describes. -/
theorem C3_cancellation_leaks_slot :
    slotsHeldAfterAcquireRaise PyExc.cancelledError = 1
    ∧ slotsHeldAfterAcquireRaise PyExc.exception = 0 := by
  decide

end HouseScanner
